import Mathlib

/-!
# Verification of the Clueso timing-and-event reconciliation pipeline

Shallow embedding of the Python services under `ProductAI/app/services`
(`dom_event_service.py`, `rag_service.py`, `script_generation_service.py`,
`elevenlabs_service.py`, `gemini_service.py`, `synced_narration_service.py`)
together with the data model of `app/models/dom_event_models.py`.

Python strings are modelled as `List Char` (or Lean `String` where convenient),
Python floats as `ℚ`, Python ints as `ℤ`, dictionaries with optional keys as
structures with `Option` fields, and `dict.get k default` as `Option.getD`.
-/

namespace Clueso

/-! ## Data model (`app/models/dom_event_models.py`) -/

/-- The `BoundingBox` from `dom_event_models.py`. -/
structure BoundingBox where
  x : ℚ
  y : ℚ
  width : ℚ
  height : ℚ
deriving DecidableEq

/-- The `EventTarget` from `dom_event_models.py`.  The `attributes : Dict[str, str]`
field is modelled as an association list. -/
structure EventTarget where
  tag : String
  id : Option String
  classes : List String
  text : Option String
  selector : String
  bbox : BoundingBox
  attributes : List (String × String)
  type : Option String
  name : Option String
deriving DecidableEq

/-- The `ScrollPosition` from `dom_event_models.py`. -/
structure ScrollPosition where
  x : ℚ
  y : ℚ
deriving DecidableEq

/-- The `Viewport` from `dom_event_models.py`. -/
structure Viewport where
  width : ℤ
  height : ℤ
deriving DecidableEq

/-- The `EventMetadata` from `dom_event_models.py`. -/
structure EventMetadata where
  url : String
  viewport : Viewport
  scrollPosition : Option ScrollPosition
deriving DecidableEq

/-- The `InteractionEvent` from `dom_event_models.py`.  The `type` field is a
string literal among click/type/focus/blur/scroll/step_change; it is modelled
as a plain `String`, exactly as the Python code compares it. -/
structure InteractionEvent where
  timestamp : ℤ
  type : String
  target : Option EventTarget
  value : Option String
  metadata : EventMetadata
deriving DecidableEq

/-- The `RecordingSession` from `dom_event_models.py` (`processedAt` is an opaque
timestamp, irrelevant to all processing; it is modelled as an optional
string). -/
structure RecordingSession where
  sessionId : String
  startTime : ℤ
  endTime : ℤ
  url : String
  viewport : Viewport
  events : List InteractionEvent
  videoPath : Option String
  audioPath : Option String
  processedAt : Option String
deriving DecidableEq

/-! ## Event Segmenter (`dom_event_service.group_events_by_step`,
`rag_service._group_events_into_steps`)

Both functions group a chronological event list into steps, opening a new step
whenever the time gap exceeds 2000 ms or the event type is `step_change`.
The dicts they build are modelled as structures (`Step` has the extra
`description` key that `group_events_by_step` initialises to `""`). -/

/-- The step dict built by `dom_event_service.group_events_by_step`. -/
structure Step where
  stepNumber : ℕ
  startTime : ℤ
  endTime : ℤ
  events : List InteractionEvent
  description : String
deriving DecidableEq

/-- The step dict built by `rag_service._group_events_into_steps` (no
`description` key). -/
structure RagStep where
  stepNumber : ℕ
  startTime : ℤ
  endTime : ℤ
  events : List InteractionEvent
deriving DecidableEq

/-- The `STEP_THRESHOLD_MS = 2000` in both segmenter implementations. -/
def STEP_THRESHOLD_MS : ℤ := 2000

/-- The loop of `group_events_by_step` (`dom_event_service.py` lines 141-160).
`prevTs` is `events[i-1].timestamp`, `cur` the `current_step` dict, `steps`
the accumulated output. -/
def groupGo (prevTs : ℤ) (cur : Step) (steps : List Step) :
    List InteractionEvent → List Step
  | [] => if cur.events ≠ [] then steps ++ [cur] else steps
  | e :: rest =>
      if STEP_THRESHOLD_MS < e.timestamp - cur.endTime ∨ e.type = "step_change" then
        let steps' := steps ++ [{ cur with endTime := prevTs }]
        groupGo e.timestamp
          ⟨steps'.length + 1, e.timestamp, e.timestamp, [e], ""⟩ steps' rest
      else
        groupGo e.timestamp
          { cur with events := cur.events ++ [e], endTime := e.timestamp } steps rest

/-- The `dom_event_service.group_events_by_step`. -/
def group_events_by_step : List InteractionEvent → List Step
  | [] => []
  | e :: rest => groupGo e.timestamp ⟨1, e.timestamp, e.timestamp, [e], ""⟩ [] rest

/-- The loop of `rag_service._group_events_into_steps` (lines 58-76);
identical logic to `groupGo`, on step dicts without `description`. -/
def ragGroupGo (prevTs : ℤ) (cur : RagStep) (steps : List RagStep) :
    List InteractionEvent → List RagStep
  | [] => if cur.events ≠ [] then steps ++ [cur] else steps
  | e :: rest =>
      if STEP_THRESHOLD_MS < e.timestamp - cur.endTime ∨ e.type = "step_change" then
        let steps' := steps ++ [{ cur with endTime := prevTs }]
        ragGroupGo e.timestamp
          ⟨steps'.length + 1, e.timestamp, e.timestamp, [e]⟩ steps' rest
      else
        ragGroupGo e.timestamp
          { cur with events := cur.events ++ [e], endTime := e.timestamp } steps rest

/-- The `rag_service._group_events_into_steps`. -/
def _group_events_into_steps : List InteractionEvent → List RagStep
  | [] => []
  | e :: rest => ragGroupGo e.timestamp ⟨1, e.timestamp, e.timestamp, [e]⟩ [] rest

/-- A sample event for concrete tests. -/
def sampleEvent (ts : ℤ) (ty : String) : InteractionEvent :=
  ⟨ts, ty, none, none, ⟨"u", ⟨800, 600⟩, none⟩⟩

/-! ## Timing Analyzer (`script_generation_service.analyze_word_timings`)

A Deepgram word dict can lack any of its keys; each key is an `Option` field
and every `.get(key, default)` of the source becomes `Option.getD`. -/

/-- One word-timing dict as consumed by `analyze_word_timings`. -/
structure Word where
  word : Option String
  punctuated_word : Option String
  start : Option ℚ
  «end» : Option ℚ
  confidence : Option ℚ
deriving DecidableEq

/-- A gap dict appended to `gaps` in `analyze_word_timings`. -/
structure GapRec where
  after_word : String
  before_word : String
  start : ℚ
  «end» : ℚ
  duration : ℚ
  position : ℕ
  type : String
deriving DecidableEq

/-- An entry of `low_confidence_words` in `analyze_word_timings`. -/
structure LowConfRec where
  word : String
  punctuated_word : String
  confidence : ℚ
  position : ℕ
  start : ℚ
deriving DecidableEq

/-- An entry of `filler_words` in `analyze_word_timings`; repetition entries
carry the extra `type = "repetition"` key. -/
structure FillerRec where
  word : String
  position : ℕ
  start : ℚ
  type : Option String
deriving DecidableEq

/-- The `current_segment` dict while still open (no `word_count` key yet). -/
structure OpenSeg where
  start : ℚ
  «end» : ℚ
  words : List Word
deriving DecidableEq

/-- A closed speaking-segment dict (after `word_count` is added). -/
structure SegRec where
  start : ℚ
  «end» : ℚ
  words : List Word
  word_count : ℕ
deriving DecidableEq

/-- The dict returned by `analyze_word_timings`.  `total_words` and
`num_gaps` are absent from the empty-input result, hence `Option`. -/
structure TimingAnalysis where
  total_duration : ℚ
  total_words : Option ℕ
  gaps : List GapRec
  average_gap : ℚ
  speaking_segments : List SegRec
  num_gaps : Option ℕ
  low_confidence_words : List LowConfRec
  filler_words : List FillerRec
  speaking_rate : ℚ
  has_timing_data : Bool
deriving DecidableEq

/-- Python's `str.lower()` (ASCII case folding suffices for every string the
pipeline compares). -/
def pyLower (s : String) : String := String.mk (s.data.map Char.toLower)

/-- The `FILLER_PATTERNS` from `analyze_word_timings`. -/
def FILLER_PATTERNS : List String :=
  ["um", "uh", "like", "you know", "so", "well", "actually", "basically"]

/-- Mutable loop state of `analyze_word_timings`: the four accumulator lists
and the open segment. -/
structure WTState where
  gaps : List GapRec
  speaking_segments : List SegRec
  low_confidence_words : List LowConfRec
  filler_words : List FillerRec
  current_segment : Option OpenSeg
deriving DecidableEq

/-- One iteration of the `for i in range(len(words) - 1)` loop of
`analyze_word_timings` (`current = words[i]`, `next_word = words[i + 1]`). -/
def wtStep (i : ℕ) (current next_word : Word) (st : WTState) : WTState :=
  let current_end := current.«end».getD 0
  let next_start := next_word.start.getD 0
  let gap_duration := next_start - current_end
  let low_confidence_words :=
    if current.confidence.getD 1 < 4/5 then
      st.low_confidence_words ++
        [⟨current.word.getD "", current.punctuated_word.getD "",
          current.confidence.getD 0, i, current.start.getD 0⟩]
    else st.low_confidence_words
  let filler_words :=
    if pyLower (current.word.getD "") ∈ FILLER_PATTERNS then
      st.filler_words ++ [⟨current.word.getD "", i, current.start.getD 0, none⟩]
    else st.filler_words
  let filler_words :=
    if current.word.getD "" = next_word.word.getD "" then
      filler_words ++
        [⟨current.word.getD "" ++ " (repeated)", i, current.start.getD 0,
          some "repetition"⟩]
    else filler_words
  if 3/10 < gap_duration then
    let gap_type : String :=
      if 4/5 < gap_duration then "major"
      else if 1/2 < gap_duration then "natural"
      else "minor"
    let gaps := st.gaps ++
      [⟨current.punctuated_word.getD (current.word.getD ""),
        next_word.punctuated_word.getD (next_word.word.getD ""),
        current_end, next_start, gap_duration, i, gap_type⟩]
    match st.current_segment with
    | some seg =>
        ⟨gaps,
         st.speaking_segments ++ [⟨seg.start, current_end, seg.words, seg.words.length⟩],
         low_confidence_words, filler_words, none⟩
    | none => ⟨gaps, st.speaking_segments, low_confidence_words, filler_words, none⟩
  else
    let seg := st.current_segment.getD ⟨current.start.getD 0, current_end, []⟩
    ⟨st.gaps, st.speaking_segments, low_confidence_words, filler_words,
     some ⟨seg.start, current_end, seg.words ++ [current]⟩⟩

/-- The whole pair loop of `analyze_word_timings`, walking adjacent pairs with
their index. -/
def wtLoop (i : ℕ) (st : WTState) : List Word → WTState
  | w1 :: w2 :: rest => wtLoop (i + 1) (wtStep i w1 w2 st) (w2 :: rest)
  | _ => st

/-- The `script_generation_service.analyze_word_timings` (lines 31-221).  The
`if not words:` guard is the `[]` case of the match. -/
def analyze_word_timings (words : List Word) : TimingAnalysis :=
  match words with
  | [] =>
    { total_duration := 0, total_words := none, gaps := [], average_gap := 0,
      speaking_segments := [], num_gaps := none, low_confidence_words := [],
      filler_words := [], speaking_rate := 0, has_timing_data := false }
  | _ :: _ =>
    let st := wtLoop 0 ⟨[], [], [], [], none⟩ words
    let speaking_segments :=
      match st.current_segment with
      | some seg =>
          st.speaking_segments ++
            [⟨seg.start, ((words.getLast?.bind Word.«end»).getD 0), seg.words,
              seg.words.length⟩]
      | none => st.speaking_segments
    let total_duration :=
      ((words.getLast?.bind Word.«end»).getD 0) -
        ((words.head?.bind Word.start).getD 0)
    let average_gap :=
      if st.gaps ≠ [] then (st.gaps.map GapRec.duration).sum / st.gaps.length else 0
    let speaking_rate :=
      if 0 < total_duration then (words.length : ℚ) / total_duration else 0
    { total_duration := total_duration, total_words := some words.length,
      gaps := st.gaps, average_gap := average_gap,
      speaking_segments := speaking_segments, num_gaps := some st.gaps.length,
      low_confidence_words := st.low_confidence_words,
      filler_words := st.filler_words, speaking_rate := speaking_rate,
      has_timing_data := true }

/-- The two-word input of C2: `[{start:0,end:1,confidence:0.9},
{start:1.5,end:2,confidence:0.9}]`. -/
def c2words : List Word :=
  [⟨none, none, some 0, some 1, some (9/10)⟩,
   ⟨none, none, some (3/2), some 2, some (9/10)⟩]

/-- The low-confidence entry appended for `words[i]` by `analyze_word_timings`. -/
def lcwEntry (i : ℕ) (w : Word) : LowConfRec :=
  ⟨w.word.getD "", w.punctuated_word.getD "", w.confidence.getD 0, i,
   w.start.getD 0⟩

/-- The low-confidence entries that the pair loop contributes, starting at
index `i`: one entry per adjacent pair whose first word has confidence below
0.8. -/
def lcwSpec : ℕ → List Word → List LowConfRec
  | i, w1 :: w2 :: rest =>
      (if w1.confidence.getD 1 < 4/5 then [lcwEntry i w1] else []) ++
        lcwSpec (i + 1) (w2 :: rest)
  | _, _ => []

/-! ## Context Builder (`rag_service.py`) and frontend instructions
(`dom_event_service.convert_event_to_instruction`) -/

/-- Python truthiness of an optional string: present and non-empty. -/
def truthyStr : Option String → Bool
  | none => false
  | some s => s != ""

/-- The `attributes.get(key)` on the association-list model of the dict. -/
def attrGet (attrs : List (String × String)) (k : String) : Option String :=
  (attrs.find? (fun p => p.1 = k)).map Prod.snd

/-- Python slicing `s[:n]`. -/
def pyTake (s : String) (n : ℕ) : String := String.mk (s.data.take n)

/-- Renders `x / 1000` with one decimal place, for `x` in milliseconds, as the
Python f-string `f"{x / 1000.0:.1f}"` does (ties are modelled as rounding up;
the claims never evaluate it at a tie). -/
def fmtMs1 (ts : ℤ) : String :=
  let tenths : ℤ := Int.fdiv (ts + 50) 100
  let sign := if tenths < 0 then "-" else ""
  let n := tenths.natAbs
  sign ++ toString (n / 10) ++ "." ++ toString (n % 10)

/-- The `rag_service._describe_event` (lines 102-147).  Returns `none` exactly
where the Python function falls through and returns `None`.  Scroll
coordinates are rendered with `ℚ`'s canonical printer (Python prints floats;
only which branch is taken matters to the claims). -/
def _describe_event (event : InteractionEvent) : Option String :=
  if event.type = "click" then
    some (match event.target with
      | some t =>
          if truthyStr t.text then "Clicked on '" ++ t.text.getD "" ++ "'"
          else if truthyStr (attrGet t.attributes "data-testid") then
            "Clicked on " ++ (attrGet t.attributes "data-testid").getD ""
          else if t.tag != "" then "Clicked on " ++ pyLower t.tag ++ " element"
          else "Clicked"
      | none => "Clicked")
  else if event.type = "type" then
    some (if truthyStr event.value then
        let v := event.value.getD ""
        let display_value := if 50 < v.length then pyTake v 50 ++ "..." else v
        match event.target with
        | some t =>
            if truthyStr (attrGet t.attributes "data-testid") then
              "Typed '" ++ display_value ++ "' in " ++
                (attrGet t.attributes "data-testid").getD ""
            else if truthyStr t.type then
              "Typed '" ++ display_value ++ "' in " ++ t.type.getD "" ++ " field"
            else "Typed '" ++ display_value ++ "'"
        | none => "Typed '" ++ display_value ++ "'"
      else "Typed in input field")
  else if event.type = "focus" then
    some (match event.target with
      | some t =>
          if truthyStr (attrGet t.attributes "data-testid") then
            "Focused on " ++ (attrGet t.attributes "data-testid").getD ""
          else if truthyStr t.type then
            "Focused on " ++ t.type.getD "" ++ " input field"
          else "Focused on input field"
      | none => "Focused on input field")
  else if event.type = "blur" then some "Left input field"
  else if event.type = "scroll" then
    some (match event.metadata.scrollPosition with
      | some p =>
          "Scrolled to position (" ++ toString p.x ++ ", " ++ toString p.y ++ ")"
      | none => "Scrolled page")
  else if event.type = "step_change" then some "Page/UI state changed"
  else none

/-- The `rag_service._build_step_context` (lines 85-99): header line plus one
line per event whose description is truthy. -/
def _build_step_context (step_num : ℕ) (step : RagStep) : String :=
  let header := "Step " ++ toString step_num ++ " (Duration: " ++
    fmtMs1 (step.endTime - step.startTime) ++ "s):"
  let lines := step.events.filterMap (fun e =>
    match _describe_event e with
    | some d =>
        if d != "" then
          some ("  [" ++ fmtMs1 e.timestamp ++ "s] " ++ d)
        else none
    | none => none)
  String.intercalate "\n" (header :: lines)

/-- The `target` dict that `convert_event_to_instruction` attaches for the
frontend. -/
structure TargetInfo where
  tag : String
  id : Option String
  classes : List String
  text : Option String
  type : Option String
  name : Option String
  attributes : List (String × String)
deriving DecidableEq

/-- The `FrontendInstruction` from `dom_event_models.py`. -/
structure FrontendInstruction where
  timestamp : ℤ
  action : String
  target : Option TargetInfo
  value : Option String
  bbox : Option BoundingBox
  selector : Option String
  confidence : ℚ
deriving DecidableEq

/-- The instruction built by `convert_event_to_instruction` when the event is
not skipped. -/
def mkInstr (event : InteractionEvent) : FrontendInstruction :=
  { timestamp := event.timestamp
    action := event.type
    target := event.target.map (fun t =>
      ⟨t.tag, t.id, t.classes, t.text, t.type, t.name, t.attributes⟩)
    value := event.value
    bbox := event.target.map EventTarget.bbox
    selector := event.target.map EventTarget.selector
    confidence := 1 }

/-- The `dom_event_service.convert_event_to_instruction` (lines 48-85): scroll
events whose recorded position is zero on both axes are skipped (`None`). -/
def convert_event_to_instruction (event : InteractionEvent) :
    Option FrontendInstruction :=
  match event.metadata.scrollPosition with
  | some p =>
      if event.type = "scroll" ∧ p.y = 0 ∧ p.x = 0 then none
      else some (mkInstr event)
  | none => some (mkInstr event)

/-- A scroll event at 3600 ms with recorded position (0, 0). -/
def zeroScrollEvent : InteractionEvent :=
  ⟨3600, "scroll", none, none, ⟨"u", ⟨800, 600⟩, some ⟨0, 0⟩⟩⟩

/-! ## Chunked Speech Synthesizer retry loop
(`elevenlabs_service._generate_single_chunk`, lines 163-236)

One Deepgram request is an external effect; it is modelled as an oracle
mapping the attempt number (1-based) to either an HTTP response or a raised
`requests` exception.  Audio payloads are byte lists (`List ℕ`). -/

/-- The `MAX_RETRIES = 3` in `elevenlabs_service.py`. -/
def MAX_RETRIES : ℕ := 3

/-- The `RETRY_DELAY = 1` second in `elevenlabs_service.py`. -/
def RETRY_DELAY : ℕ := 1

/-- Outcome of one `session.post` call: an HTTP response (ok flag, status
code, body bytes, error text) or a raised exception carrying its message
(`requests.exceptions.Timeout`, `RequestException` and any other exception are
all caught alike and only their message survives into `last_error`). -/
inductive DeepgramAttempt where
  | httpResp (ok : Bool) (statusCode : ℕ) (body : List ℕ) (text : String)
  | exn (msg : String)
deriving DecidableEq

/-- The body of one `try:` block of `_generate_single_chunk`: a non-ok
response raises `Deepgram TTS error …`, a response under 100 bytes raises
`Audio response too small …` (the soft validation failure), otherwise the
audio bytes are returned. -/
def attemptOutcome : DeepgramAttempt → Except String (List ℕ)
  | .httpResp ok status body text =>
      if !ok then
        .error ("Deepgram TTS error " ++ toString status ++ ": " ++
          (if text = "" then "No error details" else pyTake text 200))
      else if body.length < 100 then
        .error ("Audio response too small: " ++ toString body.length ++ " bytes")
      else .ok body
  | .exn msg => .error msg

/-- The classified failure raised after the retry budget is exhausted. -/
inductive TTSFailure where
  | timeout (msg : String)
  | connection (msg : String)
  | generic (msg : String)
deriving DecidableEq

/-- Python's `pat in s` substring test. -/
def strContainsAux : List Char → List Char → Bool
  | pat, [] => pat.isEmpty
  | pat, c :: cs => (pat.isPrefixOf (c :: cs) : Bool) || strContainsAux pat cs

/-- Python's `pat in s` substring test on strings. -/
def strContains (s pat : String) : Bool := strContainsAux pat.data s.data

/-- The error classification after all retries
(`elevenlabs_service.py` lines 229-236): timeout, connection, or the original
exception re-raised (generic). -/
def classify_failure (lastError : String) : TTSFailure :=
  if strContains (pyLower lastError) "timeout" then
    .timeout ("Deepgram TTS timeout after " ++ toString MAX_RETRIES ++
      " attempts. API may be slow or unresponsive.")
  else if strContains (pyLower lastError) "connection" then
    .connection ("Cannot connect to Deepgram API after " ++ toString MAX_RETRIES ++
      " attempts. Check network connectivity.")
  else .generic lastError

/-- Result of one `_generate_single_chunk` call: the payload or classified
failure, the number of attempts actually issued, and the list of backoff
sleeps (seconds) between attempts. -/
structure ChunkCall where
  result : Except TTSFailure (List ℕ)
  attemptsMade : ℕ
  sleeps : List ℕ

/-- The `for attempt in range(1, MAX_RETRIES + 1)` loop of
`_generate_single_chunk`; `fuel` counts the remaining iterations, `attempt`
the 1-based attempt number.  On failure with attempts left it sleeps
`RETRY_DELAY * attempt` and retries; on failure at the last attempt the error
is classified and propagated. -/
def retryGo (oracle : ℕ → DeepgramAttempt) : ℕ → ℕ → List ℕ → ChunkCall
  | attempt, fuel + 1, sleeps =>
      match attemptOutcome (oracle attempt) with
      | .ok body => ⟨.ok body, attempt, sleeps⟩
      | .error e =>
          if attempt < MAX_RETRIES then
            retryGo oracle (attempt + 1) fuel (sleeps ++ [RETRY_DELAY * attempt])
          else ⟨.error (classify_failure e), attempt, sleeps⟩
  | attempt, 0, sleeps => ⟨.error (classify_failure ""), attempt, sleeps⟩

/-- The `elevenlabs_service._generate_single_chunk` as a function of the request
oracle (text and voice only determine the oracle's behaviour). -/
def _generate_single_chunk (oracle : ℕ → DeepgramAttempt) : ChunkCall :=
  retryGo oracle 1 MAX_RETRIES []

/-- A concrete oracle for the C5 witness: attempt 1 returns a 50-byte stub
(soft validation failure), attempt 2 raises a read timeout, attempt 3 returns
150 bytes of audio. -/
def witnessOracle : ℕ → DeepgramAttempt
  | 1 => .httpResp true 200 (List.replicate 50 0) ""
  | 2 => .exn "HTTPSConnectionPool read timed out"
  | _ => .httpResp true 200 (List.replicate 150 7) ""

/-! ## Python string primitives

Used by the output-normalisation functions
(`script_generation_service._clean_script_output`,
`gemini_service.clean_output`, `synced_narration_service.clean_output`) and by
the TTS chunker (`elevenlabs_service.py`).  All operate on `List Char`;
`String` wrappers connect them to the service signatures. -/

/-- The whitespace class of Python's `str.strip()` and the regex `\s` (ASCII
part; the sources never feed non-ASCII whitespace). -/
def pyIsSpace (c : Char) : Bool :=
  c = ' ' ∨ c = '\t' ∨ c = '\n' ∨ c = '\r' ∨ c = '\x0b' ∨ c = '\x0c'

/-- The `text.replace("\n", " ")`. -/
def replaceNL (l : List Char) : List Char :=
  l.map (fun c => if c = '\n' then ' ' else c)

/-- The scanner of `re.sub(r"\s+", " ", text)`: `inWS` records that the
previous character was part of a whitespace run already replaced. -/
def collapseGo (inWS : Bool) : List Char → List Char
  | [] => []
  | c :: cs =>
      if pyIsSpace c then
        if inWS then collapseGo true cs else ' ' :: collapseGo true cs
      else c :: collapseGo false cs

/-- The `re.sub(r"\s+", " ", text)`: every maximal whitespace run becomes one
space. -/
def collapseWS (l : List Char) : List Char := collapseGo false l

/-- The punctuation class of `re.sub(r"\s+([.,!?])", r"\1", text)`. -/
def isPunct4 (c : Char) : Bool := c = '.' ∨ c = ',' ∨ c = '!' ∨ c = '?'

/-- The scanner of `re.sub(r"\s+([.,!?])", r"\1", text)`: `pend` holds the
pending whitespace run (reversed); it is dropped when the next character is
punctuation and flushed otherwise. -/
def fixGo (pend : List Char) : List Char → List Char
  | [] => pend.reverse
  | c :: cs =>
      if pyIsSpace c then fixGo (c :: pend) cs
      else if isPunct4 c ∧ pend ≠ [] then c :: fixGo [] cs
      else pend.reverse ++ c :: fixGo [] cs

/-- The `re.sub(r"\s+([.,!?])", r"\1", text)`. -/
def fixPunct (l : List Char) : List Char := fixGo [] l

/-- Removal of trailing whitespace (the right half of `str.strip()`). -/
def dropTrail : List Char → List Char
  | [] => []
  | c :: cs =>
      match dropTrail cs with
      | [] => if pyIsSpace c then [] else [c]
      | r :: rs => c :: r :: rs

/-- Python `str.strip()`. -/
def pyStrip (l : List Char) : List Char := dropTrail (l.dropWhile pyIsSpace)

/-- The `re.sub(r"\*\*", "", text)`: removes non-overlapping `**` pairs. -/
def removeDoubleStar : List Char → List Char
  | [] => []
  | [c] => [c]
  | c :: d :: cs =>
      if c = '*' ∧ d = '*' then removeDoubleStar cs
      else c :: removeDoubleStar (d :: cs)

/-- The `re.sub(r"\*", "", text)`: removes every asterisk. -/
def removeStar (l : List Char) : List Char := l.filter (fun c => c ≠ '*')

/-! ### TTS chunking (`elevenlabs_service.py` lines 29-58) -/

/-- The sentence-boundary class of `re.split(r'(?<=[.!?])\s+', …)` and of
`ensure_sentence_endings`. -/
def isPunctSE (c : Char) : Bool := c = '.' ∨ c = '!' ∨ c = '?'

/-- Whether a list starts with whitespace (the `\s` lookahead). -/
def headIsSpace : List Char → Bool
  | [] => false
  | c :: _ => pyIsSpace c

/-- Scanner of `re.split(r'(?<=[.!?])\s+', text)`: `skipping` marks being
inside a separator whitespace run, `cur` holds the current segment reversed.
A `.!?` character followed by whitespace ends a segment; the whitespace run
is consumed as the separator. -/
def splitGo (skipping : Bool) (cur : List Char) : List Char → List (List Char)
  | [] => [cur.reverse]
  | c :: rest =>
      if skipping ∧ pyIsSpace c then splitGo true cur rest
      else if isPunctSE c ∧ headIsSpace rest then
        (cur.reverse ++ [c]) :: splitGo true [] rest
      else splitGo false (c :: cur) rest

/-- The `re.split(r'(?<=[.!?])\s+', text)`. -/
def rawSplit (l : List Char) : List (List Char) := splitGo false [] l

/-- The `elevenlabs_service.chunk_by_sentence`: split the stripped text after
sentence punctuation, strip each piece, drop empties. -/
def chunk_by_sentence (text : List Char) : List (List Char) :=
  ((rawSplit (pyStrip text)).map pyStrip).filter (fun s => s ≠ [])

/-- The `MAX_CHUNK_SIZE = 1500` in `elevenlabs_service.py`. -/
def MAX_CHUNK_SIZE : ℕ := 1500

/-- The `elevenlabs_service.ensure_sentence_endings`: collapse whitespace, strip,
append a period when the text does not already end in `.!?`. -/
def ensure_sentence_endings (text : List Char) : List Char :=
  let txt := pyStrip (collapseWS text)
  match txt.getLast? with
  | some c => if isPunctSE c then txt else txt ++ ['.']
  | none => txt

/-- The greedy packing loop of `chunk_text_for_tts`: append the sentence to
the current chunk when it fits (re-stripping, exactly as
`f"{current_chunk} {sentence}".strip()` does), otherwise emit the current
chunk and start a new one from the sentence. -/
def packGo (maxSize : ℕ) :
    List (List Char) → List (List Char) → List Char → List (List Char)
  | [], chunks, cur => if cur ≠ [] then chunks ++ [cur] else chunks
  | s :: rest, chunks, cur =>
      if cur.length + s.length + 1 ≤ maxSize then
        packGo maxSize rest chunks (pyStrip (cur ++ ' ' :: s))
      else
        packGo maxSize rest (if cur ≠ [] then chunks ++ [cur] else chunks) s

/-- The `chunk_text_for_tts` with an explicit size (the Python default parameter
`max_size=MAX_CHUNK_SIZE`). -/
def chunkTextSized (maxSize : ℕ) (text : List Char) : List (List Char) :=
  let chunks := packGo maxSize (chunk_by_sentence text) [] []
  if chunks = [] then [text] else chunks

/-- The `elevenlabs_service.chunk_text_for_tts` at its default chunk size. -/
def chunk_text_for_tts (text : List Char) : List (List Char) :=
  chunkTextSized MAX_CHUNK_SIZE text

/-- Re-joining a sentence group with the single spaces the packer inserts. -/
def joinSp : List (List Char) → List Char
  | [] => []
  | [s] => s
  | s :: rest => s ++ ' ' :: joinSp rest

/-- Prepends characters to the first segment of a split result. -/
def prependFirst (p : List Char) : List (List Char) → List (List Char)
  | [] => [p]
  | s :: ss => (p ++ s) :: ss

/-- The `gemini_service.clean_output` = `synced_narration_service.clean_output`
(the `if not text: return ""` guard maps `[]` to `[]`, as the pipeline does). -/
def clean_output (l : List Char) : List Char :=
  pyStrip (fixPunct (collapseWS (replaceNL l)))

/-- The `script_generation_service._clean_script_output` (lines 440-456): markdown
asterisk removal, newline removal, whitespace collapse, punctuation-spacing
fix, strip. -/
def _clean_script_output (l : List Char) : List Char :=
  pyStrip (fixPunct (collapseWS (replaceNL (removeStar (removeDoubleStar l)))))

/-- The `_clean_script_output` on `String`, as the service exposes it. -/
def cleanScriptOutputStr (s : String) : String :=
  String.mk (_clean_script_output s.data)

/-- The `clean_output` on `String`, as the services expose it. -/
def cleanOutputStr (s : String) : String := String.mk (clean_output s.data)

/-! ## Script / Narration Generator
(`script_generation_service.generate_product_script` and helpers)

The external `model.generate_content` call is an effect; it is modelled as a
function `String → Except String String` from the prompt to the response text
or the raised exception's message. -/

/-- Python `str.strip()` on `String`. -/
def stripStr (s : String) : String := String.mk (pyStrip s.data)

/-- Zero-padding on the left to `w` digits. -/
def padZeros (w : ℕ) (s : String) : String :=
  if s.length < w then String.mk (List.replicate (w - s.length) '0') ++ s
  else s

/-- The f-string fixed-point format `:.{digits}f` on a rational (ties are
modelled as rounding away from zero toward plus infinity; no claim evaluates
it at a tie, where CPython rounds half to even). -/
def fmtQ (digits : ℕ) (q : ℚ) : String :=
  let scaled : ℤ := Int.fdiv (2 * q.num * 10 ^ digits + q.den) (2 * q.den)
  let sign := if scaled < 0 then "-" else ""
  let n := scaled.natAbs
  sign ++ toString (n / 10 ^ digits) ++ "." ++
    padZeros digits (toString (n % 10 ^ digits))

/-- The `script_generation_service.build_timing_context` (lines 224-278). -/
def build_timing_context (ta : TimingAnalysis) : String :=
  if ta.has_timing_data = false then "No timing data available."
  else
    let context_parts : List String :=
      ["Total Duration: " ++ fmtQ 1 ta.total_duration ++ " seconds",
       "Total Words: " ++ toString (ta.total_words.getD 0),
       "Speaking Rate: " ++ fmtQ 2 ta.speaking_rate ++ " words/second",
       "Speaking Segments: " ++ toString ta.speaking_segments.length,
       "Identified Gaps: " ++ toString (ta.num_gaps.getD 0),
       "Average Gap Duration: " ++ fmtQ 2 ta.average_gap ++ " seconds"]
    let context_parts := context_parts ++
      (if ta.filler_words ≠ [] then
        ["", "Filler Words Detected: " ++ toString ta.filler_words.length] ++
          (let filler_list :=
            (ta.filler_words.take 5).map (fun f => "'" ++ f.word ++ "'")
          if filler_list ≠ [] then
            ["  Examples: " ++ String.intercalate ", " filler_list]
          else [])
      else [])
    let context_parts := context_parts ++
      (if ta.low_confidence_words ≠ [] then
        ["", "Low Confidence Words: " ++
            toString ta.low_confidence_words.length] ++
          (let low_conf_list := (ta.low_confidence_words.take 3).map
            (fun w => "'" ++ w.word ++ "' (" ++ fmtQ 2 w.confidence ++ ")")
          if low_conf_list ≠ [] then
            ["  Examples: " ++ String.intercalate ", " low_conf_list]
          else [])
      else [])
    let context_parts := context_parts ++
      (if ta.gaps ≠ [] then
        ["", "Significant Pauses/Gaps:"] ++
          ((ta.gaps.take 5).enumFrom 1).map (fun p =>
            "  Gap " ++ toString p.1 ++ " (" ++ p.2.type ++ "): after '" ++
              p.2.after_word ++ "' → before '" ++ p.2.before_word ++ "' (" ++
              fmtQ 2 p.2.duration ++ "s at " ++ fmtQ 1 p.2.start ++ "s)")
      else [])
    String.intercalate "\n" context_parts

/-- Ordered insertion for the model of Python's `sorted`. -/
def insertStr (x : String) : List String → List String
  | [] => [x]
  | y :: ys => if x < y then x :: y :: ys else y :: insertStr x ys

/-- Python's `sorted` on strings (lexicographic by code point). -/
def sortStrs (l : List String) : List String := l.foldr insertStr []

/-- The `rag_service.extract_ui_elements_summary` (lines 150-168): sorted
deduplicated identifiers of interacted elements. -/
def extract_ui_elements_summary (events : List InteractionEvent) : String :=
  let elements := (events.map (fun e =>
    match e.target with
    | some t =>
        (if truthyStr t.text then [t.text.getD ""] else []) ++
          (if truthyStr (attrGet t.attributes "data-testid") then
            [(attrGet t.attributes "data-testid").getD ""] else []) ++
          (if truthyStr (attrGet t.attributes "aria-label") then
            [(attrGet t.attributes "aria-label").getD ""] else [])
    | none => [])).flatten.dedup
  if elements ≠ [] then
    "UI Elements: " ++ String.intercalate ", " (sortStrs elements)
  else "UI Elements: (none identified)"

/-- An entry of the timeline dict of `rag_service.build_timeline_context`. -/
structure TimelineItem where
  timestamp : ℤ
  timestamp_seconds : ℚ
  action : String
  description : Option String
deriving DecidableEq

/-- The dict returned by `rag_service.build_timeline_context`. -/
structure Timeline where
  total_events : ℕ
  significant_events : ℕ
  timeline : List TimelineItem
deriving DecidableEq

/-- The `rag_service.build_timeline_context` (lines 171-194): only click, type
and step_change events enter the timeline. -/
def build_timeline_context (events : List InteractionEvent) : Timeline :=
  let timeline := events.filterMap (fun e =>
    if e.type = "click" ∨ e.type = "type" ∨ e.type = "step_change" then
      some ⟨e.timestamp, (e.timestamp : ℚ) / 1000, e.type, _describe_event e⟩
    else none)
  ⟨events.length, timeline.length, timeline⟩

/-- Python's rendering of an optional string in an f-string (`None` prints
as `"None"`). -/
def pyShowOpt : Option String → String
  | some s => s
  | none => "None"

/-- The `script_generation_service._format_timeline` =
`synced_narration_service._format_timeline`. -/
def _format_timeline (tl : Timeline) : String :=
  if tl.timeline = [] then "No significant actions recorded."
  else
    String.intercalate "\n" (tl.timeline.map (fun item =>
      "  " ++ fmtQ 1 item.timestamp_seconds ++ "s: " ++
        pyShowOpt item.description))

/-- The `rag_service.build_rag_context_from_events` (lines 10-37). -/
def build_rag_context_from_events (session : RecordingSession) : String :=
  let context_parts : List String :=
    ["Recording Session: " ++ session.sessionId,
     "URL: " ++ session.url,
     "Duration: " ++
       fmtQ 1 (((session.endTime - session.startTime : ℤ) : ℚ) / 1000) ++
       " seconds",
     ""]
  let steps := _group_events_into_steps session.events
  let stepParts := ((steps.enumFrom 1).map (fun p =>
    [_build_step_context p.1 p.2, ""])).flatten
  String.intercalate "\n" (context_parts ++ stepParts)

/-- The `text.replace("\\", "\\\\")`: doubling backslashes for prompt safety. -/
def escBS (s : String) : String :=
  String.mk ((s.data.map (fun c => if c = '\\' then ['\\', '\\'] else [c])).flatten)

/-- The `timing_analysis` sub-dict of a successful
`generate_product_script` result. -/
structure TimingSummary where
  total_duration : ℚ
  total_words : Option ℕ
  speaking_rate : ℚ
  num_gaps : Option ℕ
  average_gap : ℚ
  num_filler_words : ℕ
  num_low_confidence : ℕ
  has_timing_data : Bool
deriving DecidableEq

/-- The dict returned by `generate_product_script`; keys absent from one of
the two return paths are `Option`s. -/
structure ScriptResult where
  script : String
  raw_text : String
  timing_analysis : Option TimingSummary
  dom_context_used : Option Bool
  session_id : Option (Option String)
  success : Bool
  error : Option String

/-- The prompt assembled by `generate_product_script` (lines 342-380). -/
def buildPrompt (raw_text_safe timing_context_safe dom_text ui_section
    timeline_section : String) : String :=
  stripStr ("\n" ++
    "You are an AI that creates professional, production-ready product demo scripts.\n" ++
    "\n" ++
    "You have access to THREE sources of information:\n" ++
    "\n" ++
    "1. RAW TRANSCRIPT (from speech-to-text):\n" ++
    raw_text_safe ++ "\n" ++
    "\n" ++
    "2. TIMING ANALYSIS (word-level timing with gaps and filler detection):\n" ++
    timing_context_safe ++ "\n" ++
    "\n" ++
    "3. SCREEN RECORDING CONTEXT (DOM events showing user actions):\n" ++
    dom_text ++ "\n" ++
    "\n" ++
    ui_section ++ "\n" ++
    "\n" ++
    timeline_section ++ "\n" ++
    "\n" ++
    "TASK:\n" ++
    "Generate a clean, professional product demo script that:\n" ++
    "\n" ++
    "1. Uses the raw transcript as the base\n" ++
    "2. Syncs with timing gaps to create natural pacing\n" ++
    "3. References actual UI actions (buttons, inputs, navigation)\n" ++
    "4. Fills pauses with meaningful connecting narration\n" ++
    "5. Maintains a polished professional tone\n" ++
    "6. Removes filler words like \"um\", \"uh\", \"like\"\n" ++
    "7. Outputs a clean, single-paragraph narration\n" ++
    "\n" ++
    "OUTPUT RULES:\n" ++
    "- Single continuous paragraph\n" ++
    "- No newlines inside the script\n" ++
    "- Present tense actions (\"click the button\")\n" ++
    "- Reference UI elements when provided\n" ++
    "- ±20% length tolerance versus original transcript\n" ++
    "- Must be clear, natural, and professional\n" ++
    "\n" ++
    "PRODUCTION-READY SCRIPT:\n")

/-- The `script_generation_service.generate_product_script` (lines 281-437),
with the external Gemini call abstracted as `generate_content`.  The `try:`
block around that call catches every exception and returns the structured
failure dict instead of raising. -/
def generate_product_script (raw_text : String) (word_timings : List Word)
    (session : Option RecordingSession)
    (generate_content : String → Except String String) : ScriptResult :=
  let timing_analysis := analyze_word_timings word_timings
  let timing_context := build_timing_context timing_analysis
  let ctxs :=
    match session with
    | some s =>
        if s.events ≠ [] then
          (build_rag_context_from_events s,
           _format_timeline (build_timeline_context s.events),
           extract_ui_elements_summary s.events)
        else ("", "", "")
    | none => ("", "", "")
  let dom_context := ctxs.1
  let timeline_context := ctxs.2.1
  let ui_elements := ctxs.2.2
  let dom_text :=
    escBS (if dom_context = "" then "No DOM events available" else dom_context)
  let timeline_text := escBS timeline_context
  let ui_text := escBS ui_elements
  let raw_text_safe := escBS raw_text
  let timing_context_safe := escBS timing_context
  let ui_section :=
    if stripStr ui_text ≠ "" then
      "UI ELEMENTS INTERACTED WITH:\n" ++ ui_text
    else ""
  let timeline_section :=
    if stripStr timeline_text ≠ "" then
      "TIMELINE OF ACTIONS:\n" ++ timeline_text
    else ""
  let prompt := buildPrompt raw_text_safe timing_context_safe dom_text
    ui_section timeline_section
  match generate_content prompt with
  | .ok txt =>
      { script := cleanScriptOutputStr txt
        raw_text := raw_text
        timing_analysis := some
          ⟨timing_analysis.total_duration, timing_analysis.total_words,
           timing_analysis.speaking_rate, timing_analysis.num_gaps,
           timing_analysis.average_gap, timing_analysis.filler_words.length,
           timing_analysis.low_confidence_words.length,
           timing_analysis.has_timing_data⟩
        dom_context_used := some
          (match session with
           | some s => s.events != []
           | none => false)
        session_id := some (session.map RecordingSession.sessionId)
        success := true
        error := none }
  | .error e =>
      { script := "Error generating script: " ++ e
        raw_text := raw_text
        timing_analysis := none
        dom_context_used := none
        session_id := none
        success := false
        error := some e }

/-! ### Canonical-form predicates for cleaned text -/

/-- The head, if any, is not whitespace. -/
def headOkB : List Char → Bool
  | [] => true
  | c :: _ => !pyIsSpace c

/-- The head, if any, is `.,!?` punctuation. -/
def headPunct : List Char → Bool
  | [] => false
  | c :: _ => isPunct4 c

/-- The last character, if any, is not whitespace. -/
def lastOkB : List Char → Bool
  | [] => true
  | [c] => !pyIsSpace c
  | _ :: cs => lastOkB cs

/-- Every whitespace character is a plain space. -/
def wsSpB (l : List Char) : Bool := l.all (fun c => !pyIsSpace c || c = ' ')

/-- No two adjacent whitespace characters. -/
def noDblB : List Char → Bool
  | [] => true
  | c :: cs => (!pyIsSpace c || headOkB cs) && noDblB cs

/-- No whitespace immediately before `.,!?` punctuation. -/
def noWPB : List Char → Bool
  | [] => true
  | c :: cs => (!pyIsSpace c || !headPunct cs) && noWPB cs

/-- No asterisk. -/
def noStarB (l : List Char) : Bool := l.all (fun c => c ≠ '*')

/-- An 800-character sentence for the C6 witness. -/
def wSent : List Char := List.replicate 799 'a' ++ ['.']

/-- A 2402-character text of three clean sentences for the C6 witness. -/
def wText : List Char := wSent ++ ' ' :: (wSent ++ ' ' :: wSent)

/-! ## Theorems -/

/-! ### Segmenter lemmas -/

/-- The loop of `group_events_by_step` emits every event exactly once:
joining the emitted steps' member lists yields the accumulated steps' events,
the open step's events, and the unprocessed input, in order. -/
theorem groupGo_join (rest : List InteractionEvent) :
    ∀ (prevTs : ℤ) (cur : Step) (steps : List Step),
      ((groupGo prevTs cur steps rest).map Step.events).flatten =
        (steps.map Step.events).flatten ++ cur.events ++ rest := by
  induction rest with
  | nil =>
      intro prevTs cur steps
      by_cases h : cur.events = []
      · simp [groupGo, h]
      · simp [groupGo, h]
  | cons e rest ih =>
      intro prevTs cur steps
      rw [groupGo]
      by_cases h : STEP_THRESHOLD_MS < e.timestamp - cur.endTime ∨ e.type = "step_change"
      · simp only [if_pos h]
        rw [ih]
        simp
      · simp only [if_neg h]
        rw [ih]
        simp

/-- Same statement for the loop of `rag_service._group_events_into_steps`. -/
theorem ragGroupGo_join (rest : List InteractionEvent) :
    ∀ (prevTs : ℤ) (cur : RagStep) (steps : List RagStep),
      ((ragGroupGo prevTs cur steps rest).map RagStep.events).flatten =
        (steps.map RagStep.events).flatten ++ cur.events ++ rest := by
  induction rest with
  | nil =>
      intro prevTs cur steps
      by_cases h : cur.events = []
      · simp [ragGroupGo, h]
      · simp [ragGroupGo, h]
  | cons e rest ih =>
      intro prevTs cur steps
      rw [ragGroupGo]
      by_cases h : STEP_THRESHOLD_MS < e.timestamp - cur.endTime ∨ e.type = "step_change"
      · simp only [if_pos h]
        rw [ih]
        simp
      · simp only [if_neg h]
        rw [ih]
        simp

/-- C1: For every input event sequence, the Event Segmenter's output steps
form a partition of the input: concatenating the events of all returned steps,
in step order, reproduces the original event sequence exactly (for both the
`dom_event_service.group_events_by_step` and the
`rag_service._group_events_into_steps` implementation), and an empty input
yields an empty step list. -/
theorem segmenter_partition (events : List InteractionEvent) :
    ((group_events_by_step events).map Step.events).flatten = events ∧
      ((_group_events_into_steps events).map RagStep.events).flatten = events ∧
      group_events_by_step ([] : List InteractionEvent) = [] ∧
      _group_events_into_steps ([] : List InteractionEvent) = [] := by
  refine ⟨?_, ?_, rfl, rfl⟩
  · cases events with
    | nil => rfl
    | cons e rest =>
        rw [group_events_by_step, groupGo_join]
        rfl
  · cases events with
    | nil => rfl
    | cons e rest =>
        rw [_group_events_into_steps, ragGroupGo_join]
        rfl

/-- The loop of `group_events_by_step` only ever appends to the accumulated
step list: accumulated steps survive into the output unchanged. -/
theorem groupGo_mem_mono (rest : List InteractionEvent) :
    ∀ (prevTs : ℤ) (cur : Step) (steps : List Step) (s : Step),
      s ∈ steps → s ∈ groupGo prevTs cur steps rest := by
  induction rest with
  | nil =>
      intro prevTs cur steps s hs
      by_cases hc : cur.events = [] <;> simp [groupGo, hc, hs]
  | cons e rest ih =>
      intro prevTs cur steps s hs
      rw [groupGo]
      by_cases hb : STEP_THRESHOLD_MS < e.timestamp - cur.endTime ∨ e.type = "step_change"
      · simp only [if_pos hb]
        exact ih _ _ _ _ (by simp [hs])
      · simp only [if_neg hb]
        exact ih _ _ _ _ hs

/-- Appending members to the open step never touches its first member, so the
head of the open step's event list survives into the final output. -/
theorem groupGo_head_surviving (rest : List InteractionEvent) :
    ∀ (prevTs : ℤ) (cur : Step) (steps : List Step), cur.events ≠ [] →
      ∃ s ∈ groupGo prevTs cur steps rest, s.events.head? = cur.events.head? := by
  induction rest with
  | nil =>
      intro prevTs cur steps h
      refine ⟨cur, ?_, rfl⟩
      simp [groupGo, h]
  | cons e rest ih =>
      intro prevTs cur steps h
      rw [groupGo]
      by_cases hb : STEP_THRESHOLD_MS < e.timestamp - cur.endTime ∨ e.type = "step_change"
      · simp only [if_pos hb]
        refine ⟨{ cur with endTime := prevTs }, ?_, rfl⟩
        exact groupGo_mem_mono _ _ _ _ _ (by simp)
      · simp only [if_neg hb]
        obtain ⟨s, hs, hh⟩ := ih e.timestamp
          { cur with events := cur.events ++ [e], endTime := e.timestamp } steps
          (by simp)
        refine ⟨s, hs, ?_⟩
        rw [hh]
        cases hc : cur.events with
        | nil => exact absurd hc h
        | cons a l => simp [hc]

/-- Any `step_change` event among the unprocessed input becomes the head of
some output step. -/
theorem groupGo_step_change (rest : List InteractionEvent) :
    ∀ (prevTs : ℤ) (cur : Step) (steps : List Step) (e' : InteractionEvent),
      e' ∈ rest → e'.type = "step_change" →
      ∃ s ∈ groupGo prevTs cur steps rest, s.events.head? = some e' := by
  induction rest with
  | nil =>
      intro _ _ _ _ h
      exact absurd h (List.not_mem_nil _)
  | cons e rest ih =>
      intro prevTs cur steps e' hmem hty
      rw [groupGo]
      rcases List.mem_cons.mp hmem with rfl | hmem'
      · have hb : STEP_THRESHOLD_MS < e'.timestamp - cur.endTime ∨
            e'.type = "step_change" := Or.inr hty
        simp only [if_pos hb]
        obtain ⟨s, hs, hh⟩ := groupGo_head_surviving rest e'.timestamp
          ⟨(steps ++ [{ cur with endTime := prevTs }]).length + 1,
            e'.timestamp, e'.timestamp, [e'], ""⟩ _ (by simp)
        exact ⟨s, hs, by simpa using hh⟩
      · by_cases hb : STEP_THRESHOLD_MS < e.timestamp - cur.endTime ∨
            e.type = "step_change"
        · simp only [if_pos hb]
          exact ih _ _ _ _ hmem' hty
        · simp only [if_neg hb]
          exact ih _ _ _ _ hmem' hty

/-- C8: every `step_change` event that is not the first event of the input
begins a new step: it is the head of some step's event list in the output of
`group_events_by_step`, regardless of the time gap (even 0 ms). -/
theorem step_change_starts_step (events : List InteractionEvent) (i : ℕ)
    (h0 : 0 < i) (hi : i < events.length)
    (hty : (events.get ⟨i, hi⟩).type = "step_change") :
    ∃ s ∈ group_events_by_step events,
      s.events.head? = some (events.get ⟨i, hi⟩) := by
  cases events with
  | nil => exact absurd hi (by simp)
  | cons e0 rest =>
      cases i with
      | zero => exact absurd h0 (by simp)
      | succ j =>
          have hj : j < rest.length := Nat.lt_of_succ_lt_succ hi
          have hget : (e0 :: rest).get ⟨j + 1, hi⟩ = rest.get ⟨j, hj⟩ := rfl
          rw [group_events_by_step, hget]
          exact groupGo_step_change rest e0.timestamp _ _ _
            (rest.get_mem j hj) (by rw [← hget]; exact hty)

/-! ### Timing Analyzer lemmas -/

/-- Lowercasing the empty string. -/
theorem pyLower_empty : pyLower "" = "" := rfl

/-- C2 counterexample: on the two-word input with a 0.5 s inter-word gap, the
Timing Analyzer reports exactly one gap of duration 0.5 s but classifies it as
`"minor"`, not `"natural"` (the code demands `gap > 0.5` for `natural`, and
`0.5 > 0.5` is false). -/
theorem gap_natural_counterexample :
    (analyze_word_timings c2words).gaps.length = 1 ∧
      (analyze_word_timings c2words).gaps.map GapRec.duration = [1/2] ∧
      ¬ (analyze_word_timings c2words).gaps.map GapRec.type = ["natural"] := by
  refine ⟨?_, ?_, ?_⟩ <;>
    norm_num [analyze_word_timings, c2words, wtLoop, wtStep, pyLower_empty,
      FILLER_PATTERNS]
  all_goals decide

/-- C2 amended: on that input the Timing Analyzer reports exactly one gap, of
duration 0.5 s, classified `"minor"`. -/
theorem gap_classified_minor :
    (analyze_word_timings c2words).gaps =
      [⟨"", "", 1, 3/2, 1/2, 0, "minor"⟩] := by
  norm_num [analyze_word_timings, c2words, wtLoop, wtStep, pyLower_empty,
    FILLER_PATTERNS]

/-- A single loop iteration appends exactly the conditional low-confidence
entry of `words[i]`. -/
theorem wtStep_lcw (i : ℕ) (w1 w2 : Word) (st : WTState) :
    (wtStep i w1 w2 st).low_confidence_words =
      st.low_confidence_words ++
        (if w1.confidence.getD 1 < 4/5 then [lcwEntry i w1] else []) := by
  obtain ⟨g, ss, lc, fw, cs⟩ := st
  cases cs <;> simp only [wtStep, lcwEntry] <;> split_ifs <;> simp

/-- The pair loop's low-confidence output is the accumulated list plus
`lcwSpec`. -/
theorem wtLoop_lcw (l : List Word) :
    ∀ (i : ℕ) (st : WTState),
      (wtLoop i st l).low_confidence_words =
        st.low_confidence_words ++ lcwSpec i l := by
  induction l with
  | nil => intro i st; simp [wtLoop, lcwSpec]
  | cons w1 rest ih =>
      intro i st
      cases rest with
      | nil => simp [wtLoop, lcwSpec]
      | cons w2 rest' =>
          rw [wtLoop, ih, wtStep_lcw, lcwSpec, List.append_assoc]

/-- Membership in `lcwSpec`: exactly the entries of words at pair positions
(every position except the last) whose confidence is below 0.8. -/
theorem mem_lcwSpec (l : List Word) :
    ∀ (i : ℕ) (e : LowConfRec),
      e ∈ lcwSpec i l ↔
        ∃ j w, l[j]? = some w ∧ j + 1 < l.length ∧ e = lcwEntry (i + j) w ∧
          w.confidence.getD 1 < 4/5 := by
  induction l with
  | nil => simp [lcwSpec]
  | cons w1 rest ih =>
      intro i e
      cases rest with
      | nil =>
          simp only [lcwSpec, List.not_mem_nil, false_iff]
          rintro ⟨j, w, hw, hlt, _, _⟩
          simp at hlt
      | cons w2 rest' =>
          rw [lcwSpec]
          simp only [List.mem_append]
          constructor
          · rintro (h | h)
            · by_cases hc : w1.confidence.getD 1 < 4/5
              · rw [if_pos hc] at h
                simp only [List.mem_singleton] at h
                exact ⟨0, w1, rfl, by simp, by simpa using h, hc⟩
              · rw [if_neg hc] at h
                exact absurd h (List.not_mem_nil _)
            · obtain ⟨j, w, hw, hlt, he, hc⟩ := (ih (i + 1) e).mp h
              refine ⟨j + 1, w, by simpa using hw, by simpa using hlt, ?_, hc⟩
              rw [he]
              congr 1
              omega
          · rintro ⟨j, w, hw, hlt, he, hc⟩
            cases j with
            | zero =>
                left
                simp only [List.getElem?_cons_zero, Option.some.injEq] at hw
                subst hw
                rw [if_pos hc]
                simp [he]
            | succ j' =>
                right
                refine (ih (i + 1) e).mpr ⟨j', w, by simpa using hw,
                  by simp at hlt ⊢; omega, ?_, hc⟩
                rw [he]
                congr 1
                omega

/-- The low-confidence list of the full analysis is `lcwSpec 0`. -/
theorem analyze_lcw (words : List Word) :
    (analyze_word_timings words).low_confidence_words = lcwSpec 0 words := by
  cases words with
  | nil => simp [analyze_word_timings, lcwSpec]
  | cons w ws =>
      simp only [analyze_word_timings]
      rw [wtLoop_lcw]
      rfl

/-- C3 counterexample: a single word with confidence 0.5 (below 0.8) is NOT
flagged — the pair loop never examines the last word, so the claim "every word
whose confidence is below 0.8 appears in `low_confidence_words` … regardless
of its position" is false. -/
theorem low_confidence_counterexample :
    ((1 : ℚ)/2 < 4/5) ∧
      (analyze_word_timings
          [⟨some "hello", none, some 0, some 1, some (1/2)⟩]).low_confidence_words
        = [] := by
  norm_num [analyze_word_timings, wtLoop]

/-- C3 amended: a word is flagged low-confidence exactly when it is at a
non-final position and its confidence (default 1.0 when absent) is below 0.8;
so confidence 0.5 is flagged and 0.95 is not, at every position except the
last, which is never flagged. -/
theorem low_confidence_characterisation (words : List Word) :
    (∀ e ∈ (analyze_word_timings words).low_confidence_words,
        ∃ w, words[e.position]? = some w ∧ e.position + 1 < words.length ∧
          w.confidence.getD 1 < 4/5) ∧
    (∀ (j : ℕ) (w : Word), words[j]? = some w → j + 1 < words.length →
        w.confidence.getD 1 < 4/5 →
        ∃ e ∈ (analyze_word_timings words).low_confidence_words,
          e.position = j ∧ e.confidence = w.confidence.getD 0) := by
  constructor
  · intro e he
    rw [analyze_lcw] at he
    obtain ⟨j, w, hw, hlt, he', hc⟩ := (mem_lcwSpec words 0 e).mp he
    refine ⟨w, ?_, ?_, hc⟩
    · rw [he']; simpa [lcwEntry] using hw
    · rw [he']; simpa [lcwEntry] using hlt
  · intro j w hw hlt hc
    refine ⟨lcwEntry j w, ?_, rfl, rfl⟩
    rw [analyze_lcw]
    exact (mem_lcwSpec words 0 _).mpr ⟨j, w, hw, hlt, by rw [Nat.zero_add], hc⟩

/-- Witness for C3's amended claim: in a two-word list whose first word has
confidence 0.5, that word is flagged with its position and confidence. -/
theorem low_confidence_characterisation_witness :
    ∃ e ∈ (analyze_word_timings
        [⟨some "foo", none, some 0, some 1, some (1/2)⟩,
         ⟨some "bar", none, some 2, some 3, some (19/20)⟩]).low_confidence_words,
      e.position = 0 ∧ e.confidence = ((⟨some "foo", none, some 0, some 1,
        some (1/2)⟩ : Word)).confidence.getD 0 :=
  (low_confidence_characterisation _).2 0
    ⟨some "foo", none, some 0, some 1, some (1/2)⟩ rfl (by norm_num)
    (by norm_num)

/-- C9: for every non-empty word list the speaking rate is the word count
divided by the total duration when that duration is positive, and 0 when the
duration is non-positive — the division branch is guarded, never a division
error. -/
theorem speaking_rate_no_div_zero (words : List Word) (h : words ≠ []) :
    ((0 : ℚ) < (analyze_word_timings words).total_duration →
      (analyze_word_timings words).speaking_rate =
        (words.length : ℚ) / (analyze_word_timings words).total_duration) ∧
    ((analyze_word_timings words).total_duration ≤ 0 →
      (analyze_word_timings words).speaking_rate = 0) := by
  cases words with
  | nil => exact absurd rfl h
  | cons w ws =>
      constructor
      · intro hpos
        simp only [analyze_word_timings] at hpos ⊢
        rw [if_pos hpos]
      · intro hnp
        simp only [analyze_word_timings] at hnp ⊢
        rw [if_neg (not_lt.mpr hnp)]

/-- C4 counterexample: a zero-position scroll event is dropped from the
frontend instructions, but the Context Builder does NOT suppress it — its
narrative contains a "Scrolled to position (0, 0)" line, so the claim that it
contributes no description line is false. -/
theorem scroll_narrative_counterexample :
    convert_event_to_instruction zeroScrollEvent = none ∧
      _describe_event zeroScrollEvent = some "Scrolled to position (0, 0)" ∧
      _build_step_context 1 ⟨1, 3600, 3600, [zeroScrollEvent]⟩ =
        "Step 1 (Duration: 0.0s):\n  [3.6s] Scrolled to position (0, 0)" := by
  refine ⟨?_, rfl, rfl⟩
  norm_num [convert_event_to_instruction, zeroScrollEvent]

/-- C4 amended: every zero-position scroll event is suppressed from the
frontend-instruction output (`convert_event_to_instruction` returns `None`),
while the event itself stays in the raw event list; the Context Builder's
narrative, however, still describes it with a "Scrolled to position" line. -/
theorem scroll_zero_instruction_suppressed (e : InteractionEvent)
    (p : ScrollPosition) (hty : e.type = "scroll")
    (hsp : e.metadata.scrollPosition = some p) (hx : p.x = 0) (hy : p.y = 0) :
    convert_event_to_instruction e = none ∧
      _describe_event e =
        some ("Scrolled to position (" ++ toString p.x ++ ", " ++
          toString p.y ++ ")") := by
  constructor
  · simp [convert_event_to_instruction, hsp, hty, hx, hy]
  · simp [_describe_event, hty, hsp]

/-- Witness for C4's amended claim at the concrete zero-scroll event. -/
theorem scroll_zero_instruction_suppressed_witness :
    convert_event_to_instruction zeroScrollEvent = none ∧
      _describe_event zeroScrollEvent =
        some ("Scrolled to position (" ++ toString (0 : ℚ) ++ ", " ++
          toString (0 : ℚ) ++ ")") :=
  scroll_zero_instruction_suppressed zeroScrollEvent ⟨0, 0⟩ rfl rfl rfl rfl

/-- C5: when the first two synthesis attempts fail (transport failure or a
response under 100 bytes alike), a successful third attempt returns its
payload, and a failing third attempt propagates the classified failure; in
both cases exactly 3 attempts are made, with backoff sleeps
`RETRY_DELAY * 1` and `RETRY_DELAY * 2` between attempts. -/
theorem single_chunk_retry (oracle : ℕ → DeepgramAttempt) (e1 e2 : String)
    (h1 : attemptOutcome (oracle 1) = .error e1)
    (h2 : attemptOutcome (oracle 2) = .error e2) :
    (∀ body : List ℕ, attemptOutcome (oracle 3) = .ok body →
        _generate_single_chunk oracle =
          ⟨.ok body, 3, [RETRY_DELAY * 1, RETRY_DELAY * 2]⟩) ∧
    (∀ e3 : String, attemptOutcome (oracle 3) = .error e3 →
        _generate_single_chunk oracle =
          ⟨.error (classify_failure e3), 3, [RETRY_DELAY * 1, RETRY_DELAY * 2]⟩) := by
  constructor
  · intro body h3
    simp [_generate_single_chunk, retryGo, h1, h2, h3, MAX_RETRIES]
  · intro e3 h3
    simp [_generate_single_chunk, retryGo, h1, h2, h3, MAX_RETRIES]

set_option maxRecDepth 4000 in
/-- Witness for C5: under `witnessOracle` the call returns the third
attempt's payload after exactly 3 attempts with sleeps of 1 s and 2 s. -/
theorem single_chunk_retry_witness :
    _generate_single_chunk witnessOracle =
      ⟨.ok (List.replicate 150 7), 3, [RETRY_DELAY * 1, RETRY_DELAY * 2]⟩ :=
  (single_chunk_retry witnessOracle "Audio response too small: 50 bytes"
      "HTTPSConnectionPool read timed out" rfl rfl).1
    (List.replicate 150 7) rfl

/-- Witness for C9: a single word with `start == end == 0` yields total
duration 0 and speaking rate 0. -/
theorem speaking_rate_no_div_zero_witness :
    (analyze_word_timings
        [⟨some "hi", none, some 0, some 0, some 1⟩]).total_duration ≤ 0 ∧
      (analyze_word_timings
        [⟨some "hi", none, some 0, some 0, some 1⟩]).speaking_rate = 0 :=
  ⟨by norm_num [analyze_word_timings, wtLoop],
   (speaking_rate_no_div_zero [⟨some "hi", none, some 0, some 0, some 1⟩]
      (by simp)).2 (by norm_num [analyze_word_timings, wtLoop])⟩

/-- Witness for C8 at a concrete input: two events 0 ms apart, the second a
`step_change`; it heads a step of the output. -/
theorem step_change_starts_step_witness :
    ∃ s ∈ group_events_by_step [sampleEvent 0 "click", sampleEvent 0 "step_change"],
      s.events.head? =
        some (([sampleEvent 0 "click", sampleEvent 0 "step_change"] :
            List InteractionEvent).get ⟨1, by decide⟩) :=
  step_change_starts_step [sampleEvent 0 "click", sampleEvent 0 "step_change"]
    1 (by decide) (by decide) (by decide)

/-! ### Properties of the cleaning scanners -/

/-- Punctuation is never whitespace. -/
theorem isPunct4_not_space {c : Char} (h : isPunct4 c) : ¬ pyIsSpace c = true := by
  simp only [isPunct4, decide_eq_true_eq] at h
  rcases h with h | h | h | h <;> subst h <;> decide

/-- Characters of `collapseGo` output come from the input or are spaces. -/
theorem mem_collapseGo (l : List Char) :
    ∀ (b : Bool) (c : Char), c ∈ collapseGo b l → c = ' ' ∨ c ∈ l := by
  induction l with
  | nil => intro b c h; simp [collapseGo] at h
  | cons a l ih =>
      intro b c h
      rw [collapseGo] at h
      by_cases ha : pyIsSpace a
      · rw [if_pos ha] at h
        cases b with
        | true =>
            simp only [if_pos] at h
            rcases ih true c h with h' | h'
            · exact Or.inl h'
            · exact Or.inr (List.mem_cons_of_mem _ h')
        | false =>
            simp only [Bool.false_eq_true, if_neg] at h
            rcases List.mem_cons.mp h with rfl | h'
            · exact Or.inl rfl
            · rcases ih true c h' with h'' | h''
              · exact Or.inl h''
              · exact Or.inr (List.mem_cons_of_mem _ h'')
      · rw [if_neg ha] at h
        rcases List.mem_cons.mp h with rfl | h'
        · exact Or.inr (List.mem_cons_self _ _)
        · rcases ih false c h' with h'' | h''
          · exact Or.inl h''
          · exact Or.inr (List.mem_cons_of_mem _ h'')

/-- Characters of `fixGo` output come from the pending run or the input. -/
theorem mem_fixGo (l : List Char) :
    ∀ (pend : List Char) (c : Char), c ∈ fixGo pend l → c ∈ pend ∨ c ∈ l := by
  induction l with
  | nil =>
      intro pend c h
      rw [fixGo] at h
      exact Or.inl (List.mem_reverse.mp h)
  | cons a l ih =>
      intro pend c h
      rw [fixGo] at h
      by_cases ha : pyIsSpace a
      · rw [if_pos ha] at h
        rcases ih _ c h with h' | h'
        · rcases List.mem_cons.mp h' with rfl | h''
          · exact Or.inr (List.mem_cons_self _ _)
          · exact Or.inl h''
        · exact Or.inr (List.mem_cons_of_mem _ h')
      · rw [if_neg ha] at h
        by_cases hb : isPunct4 a ∧ pend ≠ []
        · rw [if_pos hb] at h
          rcases List.mem_cons.mp h with rfl | h'
          · exact Or.inr (List.mem_cons_self _ _)
          · rcases ih [] c h' with h'' | h''
            · exact absurd h'' (List.not_mem_nil _)
            · exact Or.inr (List.mem_cons_of_mem _ h'')
        · rw [if_neg hb] at h
          rcases List.mem_append.mp h with h' | h'
          · exact Or.inl (List.mem_reverse.mp h')
          · rcases List.mem_cons.mp h' with rfl | h''
            · exact Or.inr (List.mem_cons_self _ _)
            · rcases ih [] c h'' with h''' | h'''
              · exact absurd h''' (List.not_mem_nil _)
              · exact Or.inr (List.mem_cons_of_mem _ h''')

/-- Characters of `dropTrail` output come from the input. -/
theorem mem_dropTrail (l : List Char) :
    ∀ c : Char, c ∈ dropTrail l → c ∈ l := by
  induction l with
  | nil => intro c h; simp [dropTrail] at h
  | cons a l ih =>
      intro c h
      rw [dropTrail] at h
      cases hd : dropTrail l with
      | nil =>
          rw [hd] at h
          by_cases ha : pyIsSpace a
          · simp [if_pos ha] at h
          · rw [if_neg ha] at h
            rcases List.mem_singleton.mp h with rfl
            exact List.mem_cons_self _ _
      | cons r rs =>
          rw [hd] at h
          rcases List.mem_cons.mp h with rfl | h'
          · exact List.mem_cons_self _ _
          · exact List.mem_cons_of_mem _ (ih c (hd ▸ h'))

/-- In skipping mode the collapse scanner swallows every leading space. -/
theorem headOk_collapseGo_true (l : List Char) :
    headOkB (collapseGo true l) := by
  induction l with
  | nil => simp [collapseGo, headOkB]
  | cons a l ih =>
      rw [collapseGo]
      by_cases ha : pyIsSpace a
      · simpa [if_pos ha] using ih
      · simp [if_neg ha, headOkB, ha]

/-- Collapse output never holds two adjacent whitespace characters. -/
theorem noDbl_collapseGo (l : List Char) :
    ∀ b : Bool, noDblB (collapseGo b l) := by
  induction l with
  | nil => intro b; simp [collapseGo, noDblB]
  | cons a l ih =>
      intro b
      rw [collapseGo]
      by_cases ha : pyIsSpace a
      · rw [if_pos ha]
        cases b with
        | true => simpa using ih true
        | false =>
            simp only [Bool.false_eq_true, if_neg]
            simp [noDblB, headOk_collapseGo_true, ih true]
      · rw [if_neg ha]
        simp [noDblB, ha, ih false]

/-- Every whitespace character of collapse output is a plain space. -/
theorem wsSp_collapseGo (l : List Char) :
    ∀ b : Bool, wsSpB (collapseGo b l) := by
  induction l with
  | nil => intro b; simp [collapseGo, wsSpB]
  | cons a l ih =>
      intro b
      rw [collapseGo]
      by_cases ha : pyIsSpace a
      · rw [if_pos ha]
        cases b with
        | true => simpa using ih true
        | false =>
            simp only [Bool.false_eq_true, if_neg]
            simpa [wsSpB] using ih true
      · rw [if_neg ha]
        simpa [wsSpB, ha] using ih false

/-- The `noWPB` passes to the tail. -/
theorem noWP_tail {c : Char} {l : List Char} (h : noWPB (c :: l)) :
    noWPB l := by
  simp only [noWPB, Bool.and_eq_true] at h
  exact h.2

/-- The `noWPB` passes to any suffix. -/
theorem noWP_drop_append (xs : List Char) :
    ∀ ys : List Char, noWPB (xs ++ ys) → noWPB ys := by
  induction xs with
  | nil => intro ys h; simpa using h
  | cons a xs ih => intro ys h; exact ih ys (noWP_tail h)

/-- The `noDblB` passes to the tail. -/
theorem noDbl_tail {c : Char} {l : List Char} (h : noDblB (c :: l)) :
    noDblB l := by
  simp only [noDblB, Bool.and_eq_true] at h
  exact h.2

/-- The `wsSpB` passes to the tail. -/
theorem wsSp_tail {c : Char} {l : List Char} (h : wsSpB (c :: l)) :
    wsSpB l := by
  simp only [wsSpB, List.all_cons, Bool.and_eq_true] at h ⊢
  exact h.2

/-- The punctuation-spacing scanner preserves the collapse invariants and
establishes `noWPB`, given a pending run that is empty or one space followed
by a non-space character. -/
theorem fixGo_preserves (l : List Char) :
    ∀ pend : List Char, wsSpB l → noDblB l →
      (pend = [] ∨ (pend = [' '] ∧ headOkB l)) →
      wsSpB (fixGo pend l) ∧ noDblB (fixGo pend l) ∧ noWPB (fixGo pend l) := by
  induction l with
  | nil =>
      intro pend _ _ hp
      rcases hp with rfl | ⟨rfl, _⟩
      · simp [fixGo, wsSpB, noDblB, noWPB]
      · simp [fixGo, wsSpB, noDblB, noWPB, headOkB, headPunct]
  | cons a l ih =>
      intro pend hws hdbl hp
      have hwa : (!pyIsSpace a || a = ' ') = true := by
        simp only [wsSpB, List.all_cons, Bool.and_eq_true] at hws
        exact hws.1
      rw [fixGo]
      by_cases ha : pyIsSpace a
      · rw [if_pos ha]
        have haa : a = ' ' := by
          rcases Bool.or_eq_true_iff.mp hwa with h | h
          · rw [ha] at h; cases h
          · simpa using h
        rcases hp with rfl | ⟨rfl, hh⟩
        · -- fresh run of one space; the next input char is non-space by noDbl
          have hok : headOkB l := by
            simp only [noDblB, Bool.and_eq_true, Bool.or_eq_true_iff] at hdbl
            rcases hdbl.1 with h | h
            · rw [ha] at h; cases h
            · exact h
          have := ih [a] (wsSp_tail hws) (noDbl_tail hdbl) (Or.inr ⟨by rw [haa], hok⟩)
          exact this
        · -- a pending space followed by a space contradicts the invariant
          simp [headOkB, ha] at hh
      · rw [if_neg ha]
        by_cases hb : isPunct4 a ∧ pend ≠ []
        · rw [if_pos hb]
          obtain ⟨hX1, hX2, hX3⟩ :=
            ih [] (wsSp_tail hws) (noDbl_tail hdbl) (Or.inl rfl)
          refine ⟨?_, ?_, ?_⟩
          · simpa [wsSpB, ha] using hX1
          · simpa [noDblB, ha] using hX2
          · simpa [noWPB, ha] using hX3
        · rw [if_neg hb]
          obtain ⟨hX1, hX2, hX3⟩ :=
            ih [] (wsSp_tail hws) (noDbl_tail hdbl) (Or.inl rfl)
          rcases hp with rfl | ⟨rfl, _⟩
          · simp only [List.reverse_nil, List.nil_append]
            refine ⟨?_, ?_, ?_⟩
            · simpa [wsSpB, ha] using hX1
            · simpa [noDblB, ha] using hX2
            · simpa [noWPB, ha] using hX3
          · have hnp : ¬ isPunct4 a = true := by
              intro hcon
              exact hb ⟨hcon, by simp⟩
            simp only [List.reverse_cons, List.reverse_nil, List.nil_append,
              List.cons_append, List.nil_append]
            refine ⟨?_, ?_, ?_⟩
            · simpa [wsSpB, ha] using hX1
            · simpa [noDblB, headOkB, ha] using hX2
            · simpa [noWPB, headPunct, ha, hnp] using hX3

/-- When no pending-or-input whitespace precedes punctuation the scanner is
the identity (modulo flushing the pending run). -/
theorem fixGo_id (l : List Char) :
    ∀ pend : List Char, (∀ p ∈ pend, pyIsSpace p) →
      noWPB (pend.reverse ++ l) → fixGo pend l = pend.reverse ++ l := by
  induction l with
  | nil => intro pend _ _; simp [fixGo]
  | cons a l ih =>
      intro pend hpw hwp
      rw [fixGo]
      by_cases ha : pyIsSpace a
      · rw [if_pos ha]
        have : fixGo (a :: pend) l = (a :: pend).reverse ++ l := by
          refine ih (a :: pend) ?_ ?_
          · intro p hp
            rcases List.mem_cons.mp hp with rfl | hp'
            · exact ha
            · exact hpw p hp'
          · simpa [List.append_assoc] using hwp
        rw [this]
        simp [List.append_assoc]
      · rw [if_neg ha]
        by_cases hb : isPunct4 a ∧ pend ≠ []
        · exfalso
          obtain ⟨hpu, hne⟩ := hb
          obtain ⟨p, ps, rfl⟩ := List.exists_cons_of_ne_nil hne
          have hwp' : noWPB (ps.reverse ++ (p :: a :: l)) := by
            simpa [List.append_assoc] using hwp
          have : noWPB (p :: a :: l) := noWP_drop_append ps.reverse _ hwp'
          simp only [noWPB, headPunct, Bool.and_eq_true, Bool.or_eq_true_iff] at this
          rcases this.1 with h | h
          · rw [hpw p (List.mem_cons_self _ _)] at h; cases h
          · rw [hpu] at h; cases h
        · rw [if_neg hb]
          have : fixGo [] l = l := by
            refine ih [] (by intro p hp; cases hp) ?_
            have h1 := noWP_drop_append pend.reverse _ hwp
            simpa using noWP_tail h1
          rw [this]

/-- On single-spaced text the collapse scanner is the identity. -/
theorem collapseGo_id (l : List Char) :
    wsSpB l → noDblB l →
      collapseGo false l = l ∧ (headOkB l → collapseGo true l = l) := by
  induction l with
  | nil => intro _ _; exact ⟨rfl, fun _ => rfl⟩
  | cons a l ih =>
      intro hws hdbl
      obtain ⟨ih1, ih2⟩ := ih (wsSp_tail hws) (noDbl_tail hdbl)
      by_cases ha : pyIsSpace a
      · have haa : a = ' ' := by
          simp only [wsSpB, List.all_cons, Bool.and_eq_true,
            Bool.or_eq_true_iff] at hws
          rcases hws.1 with h | h
          · rw [ha] at h; cases h
          · simpa using h
        have hok : headOkB l := by
          simp only [noDblB, Bool.and_eq_true, Bool.or_eq_true_iff] at hdbl
          rcases hdbl.1 with h | h
          · rw [ha] at h; cases h
          · exact h
        constructor
        · rw [collapseGo, if_pos ha]
          rw [ih2 hok, haa]
          simp
        · intro hh
          simp [headOkB, ha] at hh
      · constructor
        · rw [collapseGo, if_neg ha, ih1]
        · intro _
          rw [collapseGo, if_neg ha, ih1]

/-- On space-only whitespace the newline replacement is the identity. -/
theorem replaceNL_id (l : List Char) (h : wsSpB l) : replaceNL l = l := by
  induction l with
  | nil => rfl
  | cons a l ih =>
      have ha : a ≠ '\n' := by
        intro heq
        rw [heq] at h
        simp [wsSpB, pyIsSpace] at h
      simp only [replaceNL, List.map_cons, if_neg ha]
      have := ih (wsSp_tail h)
      simp only [replaceNL] at this
      rw [this]

/-- Leading-whitespace removal is the identity on head-clean text. -/
theorem dropWhile_id (l : List Char) (h : headOkB l) :
    l.dropWhile pyIsSpace = l := by
  cases l with
  | nil => rfl
  | cons a l =>
      simp only [headOkB, Bool.not_eq_true'] at h
      simp [List.dropWhile_cons, h]

/-- Trailing-whitespace removal is the identity on last-clean text. -/
theorem dropTrail_id (l : List Char) (h : lastOkB l) : dropTrail l = l := by
  induction l with
  | nil => rfl
  | cons a l ih =>
      cases l with
      | nil =>
          simp only [lastOkB, Bool.not_eq_true'] at h
          simp [dropTrail, h]
      | cons b m =>
          have hl : lastOkB (b :: m) := h
          rw [dropTrail, ih hl]

/-- Trailing-whitespace removal yields last-clean text. -/
theorem lastOk_dropTrail (l : List Char) : lastOkB (dropTrail l) := by
  induction l with
  | nil => simp [dropTrail, lastOkB]
  | cons a l ih =>
      rw [dropTrail]
      cases hd : dropTrail l with
      | nil =>
          by_cases ha : pyIsSpace a
          · simp [if_pos ha, lastOkB]
          · simp [if_neg ha, lastOkB, ha]
      | cons r rs =>
          rw [hd] at ih
          exact ih

/-- Trailing-whitespace removal keeps the head clean. -/
theorem headOk_dropTrail (l : List Char) (h : headOkB l) :
    headOkB (dropTrail l) := by
  cases l with
  | nil => exact h
  | cons a l =>
      rw [dropTrail]
      cases dropTrail l with
      | nil =>
          by_cases ha : pyIsSpace a
          · simp [if_pos ha, headOkB]
          · simpa [if_neg ha, headOkB] using h
      | cons r rs => exact h

/-- Leading-whitespace removal yields head-clean text. -/
theorem headOk_dropWhile (l : List Char) :
    headOkB (l.dropWhile pyIsSpace) := by
  induction l with
  | nil => simp [headOkB]
  | cons a l ih =>
      by_cases ha : pyIsSpace a
      · simpa [List.dropWhile_cons, ha] using ih
      · simp [List.dropWhile_cons, ha, headOkB]

/-- A nonempty `dropTrail` keeps the head of its input. -/
theorem dropTrail_eq_cons (l : List Char) (r : Char) (rs : List Char)
    (h : dropTrail l = r :: rs) : ∃ t, l = r :: t := by
  cases l with
  | nil => simp [dropTrail] at h
  | cons a l =>
      rw [dropTrail] at h
      cases hd : dropTrail l with
      | nil =>
          rw [hd] at h
          by_cases ha : pyIsSpace a
          · simp [if_pos ha] at h
          · rw [if_neg ha] at h
            injection h with h1 h2
            exact ⟨l, by rw [h1]⟩
      | cons x xs =>
          rw [hd] at h
          injection h with h1 h2
          exact ⟨l, by rw [h1]⟩

/-- Leading-whitespace removal preserves `noDblB`. -/
theorem noDbl_dropWhile (l : List Char) (h : noDblB l) :
    noDblB (l.dropWhile pyIsSpace) := by
  induction l with
  | nil => exact h
  | cons a l ih =>
      by_cases ha : pyIsSpace a
      · simpa [List.dropWhile_cons, ha] using ih (noDbl_tail h)
      · simpa [List.dropWhile_cons, ha] using h

/-- Leading-whitespace removal preserves `noWPB`. -/
theorem noWP_dropWhile (l : List Char) (h : noWPB l) :
    noWPB (l.dropWhile pyIsSpace) := by
  induction l with
  | nil => exact h
  | cons a l ih =>
      by_cases ha : pyIsSpace a
      · simpa [List.dropWhile_cons, ha] using ih (noWP_tail h)
      · simpa [List.dropWhile_cons, ha] using h

/-- Leading-whitespace removal preserves `lastOkB`. -/
theorem lastOk_dropWhile (l : List Char) (h : lastOkB l) :
    lastOkB (l.dropWhile pyIsSpace) := by
  induction l with
  | nil => exact h
  | cons a l ih =>
      cases l with
      | nil =>
          by_cases ha : pyIsSpace a
          · simp [List.dropWhile_cons, ha, lastOkB]
          · simpa [List.dropWhile_cons, ha] using h
      | cons b m =>
          by_cases ha : pyIsSpace a
          · simpa [List.dropWhile_cons, ha] using ih h
          · simpa [List.dropWhile_cons, ha] using h

/-- Trailing-whitespace removal preserves `noDblB`. -/
theorem noDbl_dropTrail (l : List Char) (h : noDblB l) :
    noDblB (dropTrail l) := by
  induction l with
  | nil => exact h
  | cons a l ih =>
      rw [dropTrail]
      cases hd : dropTrail l with
      | nil =>
          by_cases ha : pyIsSpace a
          · simp [if_pos ha, noDblB]
          · simp [if_neg ha, noDblB, ha, headOkB]
      | cons r rs =>
          obtain ⟨t, ht⟩ := dropTrail_eq_cons l r rs hd
          have h2 : noDblB (r :: rs) := hd ▸ ih (noDbl_tail h)
          simp only [noDblB, Bool.and_eq_true] at h h2 ⊢
          refine ⟨?_, h2⟩
          rcases Bool.or_eq_true_iff.mp h.1 with hh | hh
          · simp [hh]
          · rw [ht] at hh
            simp only [headOkB] at hh
            simp [headOkB, hh]

/-- Trailing-whitespace removal preserves `noWPB`. -/
theorem noWP_dropTrail (l : List Char) (h : noWPB l) :
    noWPB (dropTrail l) := by
  induction l with
  | nil => exact h
  | cons a l ih =>
      rw [dropTrail]
      cases hd : dropTrail l with
      | nil =>
          by_cases ha : pyIsSpace a
          · simp [if_pos ha, noWPB]
          · simp [if_neg ha, noWPB, ha, headPunct]
      | cons r rs =>
          obtain ⟨t, ht⟩ := dropTrail_eq_cons l r rs hd
          have h2 : noWPB (r :: rs) := hd ▸ ih (noWP_tail h)
          simp only [noWPB, Bool.and_eq_true] at h h2 ⊢
          refine ⟨?_, h2⟩
          rcases Bool.or_eq_true_iff.mp h.1 with hh | hh
          · simp [hh]
          · rw [ht] at hh
            simp only [headPunct] at hh
            simp [headPunct, hh]

/-- An `all`-style predicate survives `dropWhile`. -/
theorem all_dropWhile (p : Char → Bool) (l : List Char)
    (h : l.all p = true) : (l.dropWhile pyIsSpace).all p = true := by
  induction l with
  | nil => exact h
  | cons a l ih =>
      simp only [List.all_cons, Bool.and_eq_true] at h
      by_cases ha : pyIsSpace a
      · simpa [List.dropWhile_cons, ha] using ih h.2
      · simp [List.dropWhile_cons, ha, List.all_cons, h.1, h.2]

/-- An `all`-style predicate survives `dropTrail`. -/
theorem all_dropTrail (p : Char → Bool) (l : List Char)
    (h : l.all p = true) : (dropTrail l).all p = true := by
  rw [List.all_eq_true] at h ⊢
  intro c hc
  exact h c (mem_dropTrail l c hc)

/-- The `pyStrip` preserves `wsSpB`. -/
theorem wsSp_pyStrip (l : List Char) (h : wsSpB l) : wsSpB (pyStrip l) :=
  all_dropTrail _ _ (all_dropWhile _ _ h)

/-- The `pyStrip` preserves `noDblB`. -/
theorem noDbl_pyStrip (l : List Char) (h : noDblB l) : noDblB (pyStrip l) :=
  noDbl_dropTrail _ (noDbl_dropWhile _ h)

/-- The `pyStrip` preserves `noWPB`. -/
theorem noWP_pyStrip (l : List Char) (h : noWPB l) : noWPB (pyStrip l) :=
  noWP_dropTrail _ (noWP_dropWhile _ h)

/-- The `pyStrip` output is head-clean. -/
theorem headOk_pyStrip (l : List Char) : headOkB (pyStrip l) :=
  headOk_dropTrail _ (headOk_dropWhile l)

/-- The `pyStrip` output is last-clean. -/
theorem lastOk_pyStrip (l : List Char) : lastOkB (pyStrip l) :=
  lastOk_dropTrail _

/-- The `pyStrip` is the identity on clean text. -/
theorem pyStrip_id (l : List Char) (h1 : headOkB l) (h2 : lastOkB l) :
    pyStrip l = l := by
  rw [pyStrip, dropWhile_id l h1, dropTrail_id l h2]

/-- On star-free text the `**` removal is the identity. -/
theorem removeDoubleStar_id (l : List Char) (h : noStarB l) :
    removeDoubleStar l = l := by
  induction l with
  | nil => rfl
  | cons a l ih =>
      have ha : a ≠ '*' := by
        simp only [noStarB, List.all_cons, Bool.and_eq_true,
          decide_eq_true_eq] at h
        exact h.1
      have hl : noStarB l := by
        simp only [noStarB, List.all_cons, Bool.and_eq_true] at h
        exact h.2
      cases l with
      | nil => rfl
      | cons b m =>
          rw [removeDoubleStar, if_neg (by intro hcon; exact ha hcon.1)]
          rw [ih hl]

/-- The `removeStar` output is star-free. -/
theorem noStar_removeStar (l : List Char) : noStarB (removeStar l) := by
  rw [noStarB, List.all_eq_true]
  intro c hc
  have := List.of_mem_filter hc
  simpa using this

/-- On star-free text the `*` removal is the identity. -/
theorem removeStar_id (l : List Char) (h : noStarB l) : removeStar l = l := by
  rw [removeStar, List.filter_eq_self]
  rw [noStarB, List.all_eq_true] at h
  exact h

/-- Characters of `replaceNL` output come from the input or are spaces. -/
theorem mem_replaceNL (l : List Char) (c : Char) (h : c ∈ replaceNL l) :
    c = ' ' ∨ c ∈ l := by
  rw [replaceNL, List.mem_map] at h
  obtain ⟨a, ha, rfl⟩ := h
  by_cases hn : a = '\n'
  · simp [hn]
  · simp [hn]
    exact Or.inr ha

/-- Characters of `dropWhile` output come from the input. -/
theorem mem_dropWhileWS (l : List Char) (c : Char)
    (h : c ∈ l.dropWhile pyIsSpace) : c ∈ l := by
  induction l with
  | nil => exact h
  | cons a l ih =>
      by_cases ha : pyIsSpace a
      · rw [List.dropWhile_cons, if_pos ha] at h
        exact List.mem_cons_of_mem _ (ih h)
      · rw [List.dropWhile_cons, if_neg ha] at h
        exact h

/-- The cleaning pipeline keeps text star-free. -/
theorem noStar_pipeline (l : List Char) (h : noStarB l) :
    noStarB (pyStrip (fixPunct (collapseWS (replaceNL l)))) := by
  rw [noStarB, List.all_eq_true] at h ⊢
  intro c hc
  have hc1 := mem_dropTrail _ c hc
  have hc2 : c ∈ fixPunct (collapseWS (replaceNL l)) :=
    mem_dropWhileWS _ c hc1
  rcases mem_fixGo _ [] c hc2 with h' | h'
  · exact absurd h' (List.not_mem_nil _)
  · rcases mem_collapseGo _ false c h' with rfl | h''
    · decide
    · rcases mem_replaceNL _ c h'' with rfl | h'''
      · decide
      · exact h c h'''

/-- The canonical-form bundle of cleaned output. -/
theorem clean_pipeline_props (l : List Char) :
    wsSpB (pyStrip (fixPunct (collapseWS l))) ∧
      noDblB (pyStrip (fixPunct (collapseWS l))) ∧
      noWPB (pyStrip (fixPunct (collapseWS l))) ∧
      headOkB (pyStrip (fixPunct (collapseWS l))) ∧
      lastOkB (pyStrip (fixPunct (collapseWS l))) := by
  obtain ⟨h1, h2, h3⟩ := fixGo_preserves (collapseWS l) []
    (wsSp_collapseGo l false) (noDbl_collapseGo l false) (Or.inl rfl)
  exact ⟨wsSp_pyStrip _ h1, noDbl_pyStrip _ h2, noWP_pyStrip _ h3,
    headOk_pyStrip _, lastOk_pyStrip _⟩

/-- The `clean_output` is the identity on text already in canonical form. -/
theorem clean_output_id (l : List Char) (h1 : wsSpB l) (h2 : noDblB l)
    (h3 : noWPB l) (h4 : headOkB l) (h5 : lastOkB l) :
    clean_output l = l := by
  rw [clean_output, replaceNL_id l h1, collapseWS, (collapseGo_id l h1 h2).1]
  rw [fixPunct, fixGo_id l [] (by intro p hp; cases hp) (by simpa using h3)]
  simp only [List.reverse_nil, List.nil_append]
  exact pyStrip_id _ h4 h5

/-- C10: both script-output normalisers are idempotent — cleaning twice
equals cleaning once, for `script_generation_service._clean_script_output`
(markdown-asterisk removal included) and for the shared
`gemini_service.clean_output`/`synced_narration_service.clean_output`. -/
theorem clean_output_idempotent (s : String) :
    cleanScriptOutputStr (cleanScriptOutputStr s) = cleanScriptOutputStr s ∧
      cleanOutputStr (cleanOutputStr s) = cleanOutputStr s := by
  have listScript : ∀ l : List Char,
      _clean_script_output (_clean_script_output l) = _clean_script_output l := by
    intro l
    rw [_clean_script_output]
    have hstar : noStarB (_clean_script_output l) := by
      rw [_clean_script_output]
      exact noStar_pipeline _ (noStar_removeStar _)
    rw [removeDoubleStar_id _ hstar, removeStar_id _ hstar]
    obtain ⟨p1, p2, p3, p4, p5⟩ :=
      clean_pipeline_props (replaceNL (removeStar (removeDoubleStar l)))
    calc pyStrip (fixPunct (collapseWS (replaceNL (_clean_script_output l))))
        = clean_output (_clean_script_output l) := rfl
      _ = _clean_script_output l := clean_output_id _ p1 p2 p3 p4 p5
  have listClean : ∀ l : List Char,
      clean_output (clean_output l) = clean_output l := by
    intro l
    obtain ⟨p1, p2, p3, p4, p5⟩ := clean_pipeline_props (replaceNL l)
    exact clean_output_id _ p1 p2 p3 p4 p5
  constructor
  · show String.mk (_clean_script_output (String.mk (_clean_script_output s.data)).data)
      = String.mk (_clean_script_output s.data)
    exact congrArg String.mk (listScript s.data)
  · show String.mk (clean_output (String.mk (clean_output s.data)).data)
      = String.mk (clean_output s.data)
    exact congrArg String.mk (listClean s.data)

/-! ### Chunker lemmas -/

/-- Sentence punctuation is never whitespace. -/
theorem isPunctSE_not_space {c : Char} (h : isPunctSE c = true) :
    pyIsSpace c = false := by
  simp only [isPunctSE, decide_eq_true_eq] at h
  rcases h with h | h | h <;> subst h <;> decide

/-- The `headOkB` via the head character. -/
theorem headOk_of_head? {l : List Char} {c : Char} (h : l.head? = some c)
    (hc : pyIsSpace c = false) : headOkB l := by
  cases l with
  | nil => simp at h
  | cons a m =>
      injection h with h1
      subst h1
      simp [headOkB, hc]

/-- The `lastOkB` as a statement about `getLast?`. -/
theorem lastOkB_iff (l : List Char) :
    lastOkB l = true ↔ ∀ c, l.getLast? = some c → pyIsSpace c = false := by
  induction l with
  | nil => simp [lastOkB]
  | cons a l ih =>
      cases l with
      | nil => simp [lastOkB]
      | cons b m =>
          rw [show lastOkB (a :: b :: m) = lastOkB (b :: m) from rfl,
            List.getLast?_cons_cons]
          exact ih

/-- The `lastOkB` ignores a freshly consed head when the tail is nonempty. -/
theorem lastOkB_cons_of_ne {c : Char} {l : List Char} (h : l ≠ []) :
    lastOkB (c :: l) = lastOkB l := by
  cases l with
  | nil => exact absurd rfl h
  | cons b m => rfl

/-- A head-clean nonempty prefix keeps an append head-clean. -/
theorem headOk_append_left {xs : List Char} (ys : List Char) (h : xs ≠ [])
    (hok : headOkB xs) : headOkB (xs ++ ys) := by
  cases xs with
  | nil => exact absurd rfl h
  | cons a m => simpa [headOkB] using hok

/-- A last-clean nonempty suffix keeps an append last-clean. -/
theorem lastOk_append_right (xs : List Char) {ys : List Char} (h : ys ≠ [])
    (hok : lastOkB ys) : lastOkB (xs ++ ys) := by
  rw [lastOkB_iff]
  intro c hc
  rw [List.getLast?_append_of_ne_nil xs h] at hc
  exact (lastOkB_iff ys).mp hok c hc

/-- The split scanner never returns an empty segment list. -/
theorem splitGo_ne_nil (l : List Char) :
    ∀ (sk : Bool) (cur : List Char), splitGo sk cur l ≠ [] := by
  induction l with
  | nil => intro sk cur; simp [splitGo]
  | cons c rest ih =>
      intro sk cur
      rw [splitGo]
      by_cases h1 : sk = true ∧ pyIsSpace c = true
      · rw [if_pos h1]; exact ih true cur
      · rw [if_neg h1]
        by_cases h2 : isPunctSE c = true ∧ headIsSpace rest = true
        · rw [if_pos h2]; simp
        · rw [if_neg h2]; exact ih false (c :: cur)

/-- Composing first-segment prefixes. -/
theorem prependFirst_comp (p q : List Char) (X : List (List Char)) :
    prependFirst p (prependFirst q X) = prependFirst (p ++ q) X := by
  cases X <;> simp [prependFirst]

/-- The accumulated current segment only prefixes the first output segment. -/
theorem splitGo_prepend (l : List Char) :
    ∀ cur : List Char,
      splitGo false cur l = prependFirst cur.reverse (splitGo false [] l) := by
  induction l with
  | nil => intro cur; simp [splitGo, prependFirst]
  | cons c rest ih =>
      intro cur
      rw [splitGo]
      conv_rhs => rw [splitGo]
      simp only [Bool.false_eq_true, false_and, if_false]
      by_cases hb : isPunctSE c = true ∧ headIsSpace rest = true
      · rw [if_pos hb, if_pos hb]
        simp [prependFirst]
      · rw [if_neg hb, if_neg hb]
        rw [ih (c :: cur), ih [c], prependFirst_comp]
        simp

/-- Outside a whitespace run the skipping flag is irrelevant. -/
theorem splitGo_skip_eq (l : List Char) (cur : List Char) (h : headOkB l) :
    splitGo true cur l = splitGo false cur l := by
  cases l with
  | nil => rfl
  | cons c rest =>
      have hc : ¬ pyIsSpace c = true := by
        simpa [headOkB, Bool.not_eq_true'] using h
      rw [splitGo, splitGo]
      rw [if_neg (show ¬(true = true ∧ pyIsSpace c = true) from
            fun hcon => hc hcon.2),
        if_neg (show ¬(false = true ∧ pyIsSpace c = true) from
            fun hcon => by cases hcon.1)]

/-- On single-spaced, last-clean text the split scanner yields nonempty
segments: the first shares the text's head, the rest are head-clean, all are
last-clean, and segment lengths plus the single-space separators account for
the whole text. -/
theorem splitGo_stats :
    ∀ (n : ℕ) (l : List Char), l.length ≤ n → l ≠ [] →
      noDblB l → lastOkB l →
      ∃ first others, splitGo false [] l = first :: others ∧
        first ≠ [] ∧ first.head? = l.head? ∧ lastOkB first ∧
        (∀ s ∈ others, s ≠ [] ∧ headOkB s ∧ lastOkB s) ∧
        ((first :: others).map List.length).sum + others.length = l.length := by
  intro n
  induction n with
  | zero =>
      intro l hl hne _ _
      rw [Nat.le_zero, List.length_eq_zero] at hl
      exact absurd hl hne
  | succ n ih =>
      intro l hl hne hdbl hlast
      obtain ⟨c, rest, rfl⟩ := List.exists_cons_of_ne_nil hne
      rw [splitGo]
      rw [if_neg (show ¬(false = true ∧ pyIsSpace c = true) from
            fun hcon => by cases hcon.1)]
      by_cases hb : isPunctSE c = true ∧ headIsSpace rest = true
      · obtain ⟨hc, hw⟩ := hb
        cases rest with
        | nil => simp [headIsSpace] at hw
        | cons w rest' =>
            have hws : pyIsSpace w = true := by simpa [headIsSpace] using hw
            cases rest' with
            | nil =>
                exfalso
                have : lastOkB [w] = true := hlast
                simp [lastOkB, hws] at this
            | cons d rest'' =>
                have hok : headOkB (d :: rest'') := by
                  have h2 : noDblB (w :: d :: rest'') = true := noDbl_tail hdbl
                  simp only [noDblB, Bool.and_eq_true, Bool.or_eq_true_iff] at h2
                  rcases h2.1 with hh | hh
                  · rw [hws] at hh; cases hh
                  · exact hh
                rw [if_pos ⟨hc, hw⟩]
                have e1 : splitGo true ([] : List Char) (w :: d :: rest'') =
                    splitGo true [] (d :: rest'') := by
                  rw [splitGo, if_pos ⟨rfl, hws⟩]
                have e2 : splitGo true ([] : List Char) (d :: rest'') =
                    splitGo false [] (d :: rest'') := splitGo_skip_eq _ _ hok
                have hlen : (d :: rest'').length ≤ n := by
                  simp only [List.length_cons] at hl ⊢
                  omega
                have hlast' : lastOkB (d :: rest'') = true := hlast
                obtain ⟨f', o', heq, hf1, hf2, hf3, ho, hsum⟩ :=
                  ih (d :: rest'') hlen (by simp)
                    (noDbl_tail (noDbl_tail hdbl)) hlast'
                refine ⟨[c], f' :: o', ?_, by simp, by simp, ?_, ?_, ?_⟩
                · rw [e1, e2, heq]; simp
                · simp [lastOkB, isPunctSE_not_space hc]
                · intro s hs
                  rcases List.mem_cons.mp hs with rfl | hs'
                  · refine ⟨hf1, ?_, hf3⟩
                    have : ¬ pyIsSpace d = true := by
                      simpa [headOkB, Bool.not_eq_true'] using hok
                    exact headOk_of_head? (by rw [hf2]; rfl)
                      (by simpa using this)
                  · exact ho s hs'
                · simp at hsum ⊢
                  omega
      · rw [if_neg hb]
        cases rest with
        | nil =>
            refine ⟨[c], [], by simp [splitGo], by simp, by simp, hlast,
              by simp, by simp⟩
        | cons w rest' =>
            have hlen : (w :: rest').length ≤ n := by
              simp only [List.length_cons] at hl ⊢
              omega
            obtain ⟨f', o', heq, hf1, hf2, hf3, ho, hsum⟩ :=
              ih (w :: rest') hlen (by simp) (noDbl_tail hdbl) hlast
            refine ⟨c :: f', o', ?_, by simp, by simp, ?_, ho, ?_⟩
            · rw [splitGo_prepend _ [c], heq]
              simp [prependFirst]
            · rw [lastOkB_cons_of_ne hf1]
              exact hf3
            · simp only [List.map_cons, List.sum_cons, List.length_cons] at hsum ⊢
              omega

/-- Every sentence that `chunk_by_sentence` returns is nonempty, head-clean
and last-clean (it is stripped by construction). -/
theorem chunk_by_sentence_clean (text : List Char) :
    ∀ s ∈ chunk_by_sentence text, s ≠ [] ∧ headOkB s ∧ lastOkB s := by
  intro s hs
  rw [chunk_by_sentence, List.mem_filter] at hs
  obtain ⟨hmem, hne⟩ := hs
  rw [List.mem_map] at hmem
  obtain ⟨seg, _, rfl⟩ := hmem
  exact ⟨by simpa using hne, headOk_pyStrip seg, lastOk_pyStrip seg⟩

/-- On normalized text (single-spaced, stripped) `chunk_by_sentence` is the
raw split, and segment lengths plus single-space separators account for the
whole text. -/
theorem chunk_by_sentence_normal (t : List Char) (hne : t ≠ [])
    (hdbl : noDblB t) (hhead : headOkB t) (hlast : lastOkB t) :
    chunk_by_sentence t ≠ [] ∧
      ((chunk_by_sentence t).map List.length).sum +
        ((chunk_by_sentence t).length - 1) = t.length := by
  obtain ⟨first, others, heq, h1, h2, h3, ho, hsum⟩ :=
    splitGo_stats t.length t le_rfl hne hdbl hlast
  have hfo : headOkB first := by
    cases t with
    | nil => exact absurd rfl hne
    | cons a m =>
        have : ¬ pyIsSpace a = true := by
          simpa [headOkB, Bool.not_eq_true'] using hhead
        exact headOk_of_head? (by rw [h2]; rfl) (by simpa using this)
  have hmap : others.map pyStrip = others := by
    rw [show others.map pyStrip = others.map pyStrip from rfl]
    calc others.map pyStrip
        = others.map id := by
          apply List.map_congr_left
          intro s hs
          simpa using pyStrip_id s (ho s hs).2.1 (ho s hs).2.2
      _ = others := List.map_id others
  have hchunk : chunk_by_sentence t = first :: others := by
    rw [chunk_by_sentence, pyStrip_id t hhead hlast, rawSplit, heq,
      List.map_cons, pyStrip_id first hfo h3, hmap]
    rw [List.filter_eq_self.mpr]
    intro s hs
    rcases List.mem_cons.mp hs with rfl | hs'
    · simpa using h1
    · simpa using (ho s hs').1
  rw [hchunk]
  refine ⟨by simp, ?_⟩
  simpa using hsum

/-- Unfolding `joinSp` on a two-or-more-element group. -/
theorem joinSp_cons_cons (s b : List Char) (m : List (List Char)) :
    joinSp (s :: b :: m) = s ++ ' ' :: joinSp (b :: m) := rfl

/-- Joining a nonempty group of nonempty sentences is nonempty. -/
theorem joinSp_ne_nil (g : List (List Char)) (hg : g ≠ [])
    (hs : ∀ s ∈ g, s ≠ []) : joinSp g ≠ [] := by
  cases g with
  | nil => exact absurd rfl hg
  | cons s rest =>
      cases rest with
      | nil => exact hs s (by simp)
      | cons b m =>
          rw [joinSp_cons_cons]
          simp [hs s (by simp)]

/-- The head of a joined group is the head of its first sentence. -/
theorem joinSp_head (g : List (List Char)) (s0 : List Char) (h : s0 ≠ []) :
    (joinSp (s0 :: g)).head? = s0.head? := by
  cases g with
  | nil => rfl
  | cons b m =>
      rw [joinSp_cons_cons]
      cases s0 with
      | nil => exact absurd rfl h
      | cons a t => rfl

/-- A joined group of last-clean nonempty sentences is last-clean. -/
theorem joinSp_lastOk (g : List (List Char))
    (h : ∀ s ∈ g, s ≠ [] ∧ lastOkB s) : lastOkB (joinSp g) := by
  induction g with
  | nil => simp [joinSp, lastOkB]
  | cons s rest ih =>
      cases rest with
      | nil => exact (h s (by simp)).2
      | cons b m =>
          rw [joinSp_cons_cons]
          refine lastOk_append_right s (by simp) ?_
          rw [lastOkB_cons_of_ne
            (joinSp_ne_nil (b :: m) (by simp) (fun x hx => (h x (by simp [hx])).1))]
          exact ih (fun x hx => h x (by simp [hx]))

/-- Extending a group by one sentence glues with a single space. -/
theorem joinSp_append_single (g : List (List Char)) (s : List Char)
    (h : g ≠ []) : joinSp (g ++ [s]) = joinSp g ++ ' ' :: s := by
  induction g with
  | nil => exact absurd rfl h
  | cons g0 rest ih =>
      cases rest with
      | nil => rfl
      | cons g1 m =>
          have h0 : joinSp ((g0 :: g1 :: m) ++ [s]) =
              g0 ++ ' ' :: joinSp ((g1 :: m) ++ [s]) := by
            rw [show (g0 :: g1 :: m) ++ [s] = g0 :: ((g1 :: m) ++ [s]) from rfl]
            rw [show (g1 :: m) ++ [s] = g1 :: (m ++ [s]) from rfl,
              joinSp_cons_cons]
          rw [h0, ih (by simp), joinSp_cons_cons]
          simp

/-- Length of a joined group: sentence lengths plus one space per glue. -/
theorem joinSp_len (g : List (List Char)) (h : g ≠ []) :
    (joinSp g).length = (g.map List.length).sum + (g.length - 1) := by
  induction g with
  | nil => exact absurd rfl h
  | cons s rest ih =>
      cases rest with
      | nil => simp [joinSp]
      | cons b m =>
          rw [joinSp_cons_cons]
          have := ih (by simp)
          simp only [List.map_cons, List.sum_cons, List.length_cons,
            List.length_append] at this ⊢
          omega

/-- A joined group of clean sentences is head-clean. -/
theorem headOk_joinSp (g : List (List Char)) (hg : g ≠ [])
    (h : ∀ s ∈ g, s ≠ [] ∧ headOkB s) : headOkB (joinSp g) := by
  cases g with
  | nil => exact absurd rfl hg
  | cons s0 rest =>
      obtain ⟨hne, hok⟩ := h s0 (by simp)
      cases s0 with
      | nil => exact absurd rfl hne
      | cons a t =>
          have hhd : (joinSp ((a :: t) :: rest)).head? = some a := by
            rw [joinSp_head _ _ (by simp)]; rfl
          exact headOk_of_head? hhd
            (by simpa [headOkB, Bool.not_eq_true'] using hok)

/-- The packer's re-strip after gluing is a no-op: gluing clean pieces with a
single space yields clean text. -/
theorem pyStrip_glue (g : List (List Char)) (s : List Char) (hg : g ≠ [])
    (hclean : ∀ x ∈ g, x ≠ [] ∧ headOkB x ∧ lastOkB x)
    (hs : s ≠ [] ∧ headOkB s ∧ lastOkB s) :
    pyStrip (joinSp g ++ ' ' :: s) = joinSp (g ++ [s]) := by
  rw [joinSp_append_single g s hg]
  apply pyStrip_id
  · exact headOk_append_left _ (joinSp_ne_nil g hg fun x hx => (hclean x hx).1)
      (headOk_joinSp g hg fun x hx => ⟨(hclean x hx).1, (hclean x hx).2.1⟩)
  · refine lastOk_append_right _ (by simp) ?_
    rw [lastOkB_cons_of_ne hs.1]
    exact hs.2.2

/-- Stripping a single leading space from a clean sentence. -/
theorem pyStrip_space_cons (s : List Char) (h1 : headOkB s)
    (h2 : lastOkB s) : pyStrip (' ' :: s) = s := by
  rw [pyStrip, List.dropWhile_cons, if_pos (by decide), dropWhile_id s h1,
    dropTrail_id s h2]

/-- Chunks already accumulated survive the rest of the packing loop. -/
theorem packGo_mono (maxSize : ℕ) (sents : List (List Char)) :
    ∀ (chunks : List (List Char)) (cur c : List Char),
      c ∈ chunks → c ∈ packGo maxSize sents chunks cur := by
  induction sents with
  | nil =>
      intro chunks cur c hc
      rw [packGo]
      by_cases h : cur ≠ [] <;> simp [h, hc]
  | cons s rest ih =>
      intro chunks cur c hc
      rw [packGo]
      by_cases h : cur.length + s.length + 1 ≤ maxSize
      · rw [if_pos h]
        exact ih _ _ _ hc
      · rw [if_neg h]
        apply ih
        by_cases hcur : cur ≠ [] <;> simp [hcur, hc]

/-- A current chunk already longer than the budget is emitted as-is. -/
theorem packGo_cur_mem (maxSize : ℕ) (sents : List (List Char)) :
    ∀ (chunks : List (List Char)) (cur : List Char),
      maxSize < cur.length → cur ∈ packGo maxSize sents chunks cur := by
  induction sents with
  | nil =>
      intro chunks cur hbig
      rw [packGo]
      have : cur ≠ [] := by
        intro hc
        rw [hc] at hbig
        simp at hbig
      simp [this]
  | cons s rest ih =>
      intro chunks cur hbig
      rw [packGo]
      rw [if_neg (by omega)]
      have : cur ≠ [] := by
        intro hc
        rw [hc] at hbig
        simp at hbig
      rw [if_pos this]
      exact packGo_mono _ _ _ _ _ (by simp)

/-- An oversized sentence always becomes its own chunk. -/
theorem packGo_oversized (maxSize : ℕ) (sents : List (List Char)) :
    ∀ (chunks : List (List Char)) (cur s : List Char),
      s ∈ sents → maxSize < s.length →
      s ∈ packGo maxSize sents chunks cur := by
  induction sents with
  | nil => intro _ _ _ h; exact absurd h (List.not_mem_nil _)
  | cons s0 rest ih =>
      intro chunks cur s hmem hbig
      rcases List.mem_cons.mp hmem with rfl | hmem'
      · rw [packGo, if_neg (by omega)]
        exact packGo_cur_mem _ _ _ _ hbig
      · rw [packGo]
        by_cases h : cur.length + s0.length + 1 ≤ maxSize
        · rw [if_pos h]
          exact ih _ _ _ hmem' hbig
        · rw [if_neg h]
          exact ih _ _ _ hmem' hbig

/-- The packing loop groups the remaining sentences: its output appends, to
the accumulated chunks, the space-joins of a partition whose first group
extends the current group `g0`; when every sentence fits the budget (with its
glue space) and the current chunk is within budget, every produced chunk is
within budget. -/
theorem packGo_spec (maxSize : ℕ) (sents : List (List Char)) :
    ∀ (g0 chunks : List (List Char)),
      (∀ s ∈ sents, s ≠ [] ∧ headOkB s ∧ lastOkB s) →
      g0 ≠ [] → (∀ s ∈ g0, s ≠ [] ∧ headOkB s ∧ lastOkB s) →
      ∃ part : List (List (List Char)),
        packGo maxSize sents chunks (joinSp g0) = chunks ++ part.map joinSp ∧
        part.flatten = g0 ++ sents ∧
        (∀ g ∈ part, g ≠ []) ∧
        ((∀ s ∈ sents, s.length + 1 ≤ maxSize) →
          (joinSp g0).length ≤ maxSize →
          ∀ c ∈ part.map joinSp, c.length ≤ maxSize) := by
  induction sents with
  | nil =>
      intro g0 chunks _ hg0 hclean
      refine ⟨[g0], ?_, by simp, by simp [hg0], ?_⟩
      · rw [packGo,
          if_pos (joinSp_ne_nil g0 hg0 fun x hx => (hclean x hx).1)]
        simp
      · intro _ hbound c hc
        rcases List.mem_map.mp hc with ⟨g, hg, rfl⟩
        rcases List.mem_singleton.mp hg with rfl
        exact hbound
  | cons s rest ih =>
      intro g0 chunks hsents hg0 hclean
      have hs0 := hsents s (by simp)
      have hrest : ∀ x ∈ rest, x ≠ [] ∧ headOkB x ∧ lastOkB x :=
        fun x hx => hsents x (by simp [hx])
      rw [packGo]
      by_cases hfit : (joinSp g0).length + s.length + 1 ≤ maxSize
      · rw [if_pos hfit, pyStrip_glue g0 s hg0 hclean hs0]
        obtain ⟨part, heq, hjoin, hne, hbound⟩ :=
          ih (g0 ++ [s]) chunks hrest (by simp) (by
            intro x hx
            rcases List.mem_append.mp hx with hx' | hx'
            · exact hclean x hx'
            · rcases List.mem_singleton.mp hx' with rfl
              exact hs0)
        refine ⟨part, heq, by simpa using hjoin, hne, ?_⟩
        intro hlen hcur c hc
        refine hbound (fun x hx => hlen x (by simp [hx])) ?_ c hc
        rw [joinSp_append_single g0 s hg0]
        have := hlen s (by simp)
        simp only [List.length_append, List.length_cons]
        omega
      · rw [if_neg hfit,
          if_pos (joinSp_ne_nil g0 hg0 fun x hx => (hclean x hx).1)]
        obtain ⟨part, heq, hjoin, hne, hbound⟩ :=
          ih [s] (chunks ++ [joinSp g0]) hrest (by simp) (by
            intro x hx
            rcases List.mem_singleton.mp hx with rfl
            exact hs0)
        refine ⟨g0 :: part, ?_, ?_, ?_, ?_⟩
        · rw [show joinSp [s] = s from rfl] at heq
          rw [heq]
          simp
        · simpa using hjoin
        · intro g hg
          rcases List.mem_cons.mp hg with rfl | hg'
          · exact hg0
          · exact hne g hg'
        · intro hlen hcur c hc
          rw [List.map_cons] at hc
          rcases List.mem_cons.mp hc with rfl | hc'
          · exact hcur
          · refine hbound (fun x hx => hlen x (by simp [hx])) ?_ c hc'
            have := hlen s (by simp)
            rw [show joinSp [s] = s from rfl]
            omega

/-- Appending a non-space character preserves single-spacing. -/
theorem noDbl_append_nonspace (l : List Char) (c : Char)
    (hc : pyIsSpace c = false) (h : noDblB l) : noDblB (l ++ [c]) := by
  induction l with
  | nil => simp [noDblB, headOkB, hc]
  | cons a m ih =>
      simp only [List.cons_append]
      simp only [noDblB, Bool.and_eq_true] at h ⊢
      refine ⟨?_, ih h.2⟩
      rcases Bool.or_eq_true_iff.mp h.1 with hh | hh
      · simp [hh]
      · cases m with
        | nil => simp [headOkB, hc]
        | cons b t => simpa [headOkB] using Or.inr hh

/-- The `ensure_sentence_endings` output is single-spaced, head-clean and
last-clean. -/
theorem ensure_props (text : List Char) :
    noDblB (ensure_sentence_endings text) ∧
      headOkB (ensure_sentence_endings text) ∧
      lastOkB (ensure_sentence_endings text) := by
  have hdbl : noDblB (pyStrip (collapseWS text)) :=
    noDbl_pyStrip _ (noDbl_collapseGo text false)
  have hhead : headOkB (pyStrip (collapseWS text)) := headOk_pyStrip _
  have hlast : lastOkB (pyStrip (collapseWS text)) := lastOk_pyStrip _
  rw [ensure_sentence_endings]
  cases hl : (pyStrip (collapseWS text)).getLast? with
  | none => exact ⟨hdbl, hhead, hlast⟩
  | some c =>
      dsimp only
      by_cases hc : isPunctSE c = true
      · rw [if_pos hc]
        exact ⟨hdbl, hhead, hlast⟩
      · rw [if_neg hc]
        have hne : pyStrip (collapseWS text) ≠ [] := by
          intro hcon
          rw [hcon] at hl
          simp at hl
        refine ⟨noDbl_append_nonspace _ '.' (by decide) hdbl,
          headOk_append_left _ hne hhead, ?_⟩
        exact lastOk_append_right _ (by simp) (by simp [lastOkB]; decide)

/-- C6: for every text whose normalized form exceeds the 1500-character
chunk threshold and whose sentences are each below the threshold, the chunker
produces at least 2 chunks, each of length at most 1500, and the chunks are
exactly the space-joins of a partition of the sentence sequence in order
(re-joining them, ignoring the inserted spacing, reproduces the sentences);
moreover, for any text, a single sentence exceeding the threshold becomes its
own chunk. -/
theorem chunking_spec (text : List Char)
    (h1 : MAX_CHUNK_SIZE < (ensure_sentence_endings text).length)
    (h2 : ∀ s ∈ chunk_by_sentence (ensure_sentence_endings text),
        s.length < MAX_CHUNK_SIZE) :
    2 ≤ (chunk_text_for_tts (ensure_sentence_endings text)).length ∧
    (∀ c ∈ chunk_text_for_tts (ensure_sentence_endings text),
        c.length ≤ MAX_CHUNK_SIZE) ∧
    (∃ part : List (List (List Char)),
        (∀ g ∈ part, g ≠ []) ∧
        part.flatten = chunk_by_sentence (ensure_sentence_endings text) ∧
        chunk_text_for_tts (ensure_sentence_endings text) = part.map joinSp) ∧
    (∀ (u s : List Char), s ∈ chunk_by_sentence u →
        MAX_CHUNK_SIZE < s.length → s ∈ chunk_text_for_tts u) := by
  obtain ⟨hdbl, hhead, hlast⟩ := ensure_props text
  have hne : ensure_sentence_endings text ≠ [] := by
    intro h
    rw [h] at h1
    simp [MAX_CHUNK_SIZE] at h1
  obtain ⟨hcs_ne, hsum⟩ :=
    chunk_by_sentence_normal (ensure_sentence_endings text) hne hdbl hhead hlast
  have hclean := chunk_by_sentence_clean (ensure_sentence_endings text)
  cases hcs : chunk_by_sentence (ensure_sentence_endings text) with
  | nil => exact absurd hcs hcs_ne
  | cons s1 rest =>
      have hs1 := hclean s1 (by rw [hcs]; simp)
      have hs1len : s1.length < MAX_CHUNK_SIZE := h2 s1 (by rw [hcs]; simp)
      obtain ⟨part, heq, hjoin, hgne, hbound⟩ :=
        packGo_spec MAX_CHUNK_SIZE rest [s1] []
          (fun x hx => hclean x (by rw [hcs]; simp [hx]))
          (by simp)
          (fun x hx => by rcases List.mem_singleton.mp hx with rfl; exact hs1)
      have hfirst : packGo MAX_CHUNK_SIZE (s1 :: rest) [] [] =
          packGo MAX_CHUNK_SIZE rest [] (joinSp [s1]) := by
        rw [packGo, if_pos (by simp only [List.length_nil]; omega)]
        rw [show ([] : List Char) ++ ' ' :: s1 = ' ' :: s1 from rfl,
          pyStrip_space_cons s1 hs1.2.1 hs1.2.2]
        rfl
      have hchunks : packGo MAX_CHUNK_SIZE (s1 :: rest) [] [] = part.map joinSp := by
        rw [hfirst, heq]
        simp
      have hflat : part.flatten = s1 :: rest := by simpa using hjoin
      have hpart_ne : part ≠ [] := by
        intro hcon
        rw [hcon] at hflat
        simp at hflat
      have hchunks_ne : part.map joinSp ≠ [] := by
        intro hcon
        rw [List.map_eq_nil_iff] at hcon
        exact hpart_ne hcon
      have hctt : chunk_text_for_tts (ensure_sentence_endings text) =
          part.map joinSp := by
        simp only [chunk_text_for_tts, chunkTextSized]
        rw [hcs, hchunks, if_neg (by simpa using hchunks_ne)]
      have hboundAll : ∀ c ∈ part.map joinSp, c.length ≤ MAX_CHUNK_SIZE := by
        refine hbound ?_ ?_
        · intro x hx
          have := h2 x (by rw [hcs]; simp [hx])
          omega
        · rw [show joinSp [s1] = s1 from rfl]
          omega
      refine ⟨?_, ?_, ⟨part, hgne, hflat, hctt⟩, ?_⟩
      · -- at least two chunks
        rw [hctt]
        by_contra hcon
        push_neg at hcon
        cases part with
        | nil => exact hpart_ne rfl
        | cons g part' =>
            cases part' with
            | nil =>
                have hgflat : g = s1 :: rest := by simpa using hflat
                have hlen2 : (joinSp g).length ≤ MAX_CHUNK_SIZE :=
                  hboundAll _ (by simp)
                rw [joinSp_len g (by rw [hgflat]; simp), hgflat] at hlen2
                rw [hcs] at hsum
                simp only [List.length_cons, List.map_cons,
                  List.sum_cons] at hsum hlen2
                omega
            | cons g2 part'' =>
                simp only [List.map_cons, List.length_cons] at hcon
                omega
      · rw [hctt]
        exact hboundAll
      · intro u s hmem hbig
        simp only [chunk_text_for_tts, chunkTextSized]
        have hs_in : s ∈ packGo MAX_CHUNK_SIZE (chunk_by_sentence u) [] [] :=
          packGo_oversized _ _ _ _ _ hmem hbig
        rw [if_neg (by
          intro hcon
          rw [hcon] at hs_in
          exact List.not_mem_nil _ hs_in)]
        exact hs_in

/-- Characters of the witness sentence. -/
theorem wSent_mem : ∀ c ∈ wSent, c = 'a' ∨ c = '.' := by
  intro c hc
  rw [wSent, List.mem_append] at hc
  rcases hc with hc | hc
  · exact Or.inl (List.eq_of_mem_replicate hc)
  · exact Or.inr (List.mem_singleton.mp hc)

/-- The witness sentence has no whitespace. -/
theorem wSent_nospace : ∀ c ∈ wSent, pyIsSpace c = false := by
  intro c hc
  rcases wSent_mem c hc with rfl | rfl <;> decide

/-- A whitespace-free list is single-spaced. -/
theorem noDbl_of_nospace (l : List Char)
    (h : ∀ c ∈ l, pyIsSpace c = false) : noDblB l := by
  induction l with
  | nil => rfl
  | cons a m ih =>
      simp only [noDblB, Bool.and_eq_true]
      refine ⟨by simp [h a (by simp)], ih fun c hc => h c (by simp [hc])⟩

/-- Gluing a whitespace-free piece before a clean tail with a single space
keeps the text single-spaced. -/
theorem noDbl_sep (xs ys : List Char) (hx : ∀ c ∈ xs, pyIsSpace c = false)
    (hne : xs ≠ []) (hok : headOkB ys) (hy : noDblB ys) :
    noDblB (xs ++ ' ' :: ys) := by
  induction xs with
  | nil => exact absurd rfl hne
  | cons a m ih =>
      cases m with
      | nil =>
          simp only [List.cons_append, List.nil_append, noDblB,
            Bool.and_eq_true]
          exact ⟨by simp [hx a (by simp)],
            by simp [headOkB] at hok ⊢; simp [hok], hy⟩
      | cons b t =>
          simp only [List.cons_append, noDblB, Bool.and_eq_true]
          refine ⟨by simp [hx a (by simp)], ?_⟩
          have h2 := ih (fun c hc => hx c (by simp [hc])) (by simp)
          simpa [List.cons_append, noDblB, Bool.and_eq_true] using h2

/-- The witness sentence decomposed one character in. -/
theorem wSent_cons : wSent = 'a' :: (List.replicate 798 'a' ++ ['.']) := by
  rw [wSent, show (799 : ℕ) = 798 + 1 from rfl, List.replicate_succ,
    List.cons_append]

/-- The witness sentence is nonempty. -/
theorem wSent_ne : wSent ≠ [] := by
  rw [wSent_cons]
  exact List.cons_ne_nil _ _

/-- The witness sentence is head-clean. -/
theorem wSent_headOk : headOkB wSent := by
  rw [wSent_cons]
  rfl

/-- The witness sentence ends in a period. -/
theorem wSent_getLast : wSent.getLast? = some '.' := by
  rw [wSent, List.getLast?_append_of_ne_nil _ (by simp)]
  rfl

/-- The witness sentence is last-clean. -/
theorem wSent_lastOk : lastOkB wSent := by
  rw [lastOkB_iff]
  intro c hc
  rw [wSent_getLast] at hc
  injection hc with hc
  subst hc
  decide

/-- The witness sentence is 800 characters long. -/
theorem wSent_len : wSent.length = 800 := by
  rw [wSent, List.length_append, List.length_replicate]
  rfl

/-- Scanning a run of letters accumulates them into the current segment. -/
theorem scanA (n : ℕ) :
    ∀ (cur rest : List Char),
      splitGo false cur (List.replicate n 'a' ++ rest) =
        splitGo false ((List.replicate n 'a').reverse ++ cur) rest := by
  induction n with
  | zero => intro cur rest; simp
  | succ n ih =>
      intro cur rest
      rw [List.replicate_succ, List.cons_append, splitGo]
      rw [if_neg (show ¬(false = true ∧ pyIsSpace 'a' = true) from
            fun hcon => by cases hcon.1)]
      rw [if_neg (show ¬(isPunctSE 'a' = true ∧
            headIsSpace (List.replicate n 'a' ++ rest) = true) from
            fun hcon => by cases hcon.1)]
      rw [ih ('a' :: cur) rest]
      congr 1
      simp [List.replicate_succ]

/-- Scanning the witness sentence followed by a space-separated clean tail
emits the sentence as one segment. -/
theorem scan_wSent (ys : List Char) (hok : headOkB ys) :
    splitGo false [] (wSent ++ ' ' :: ys) = wSent :: splitGo false [] ys := by
  rw [wSent, List.append_assoc, List.singleton_append, scanA]
  rw [splitGo]
  rw [if_neg (show ¬(false = true ∧ pyIsSpace '.' = true) from
        fun hcon => by cases hcon.1)]
  rw [if_pos (show isPunctSE '.' = true ∧ headIsSpace (' ' :: ys) = true from
        ⟨rfl, rfl⟩)]
  rw [show splitGo true [] (' ' :: ys) = splitGo true [] ys from by
    rw [splitGo, if_pos ⟨rfl, rfl⟩]]
  rw [splitGo_skip_eq ys [] hok, List.append_nil, List.reverse_reverse,
    show List.replicate 799 'a' ++ ['.'] = wSent from rfl]

/-- Scanning the witness sentence alone yields one segment. -/
theorem scan_wSent_alone : splitGo false [] wSent = [wSent] := by
  rw [wSent, scanA]
  rw [splitGo]
  rw [if_neg (show ¬(false = true ∧ pyIsSpace '.' = true) from
        fun hcon => by cases hcon.1)]
  rw [if_neg (show ¬(isPunctSE '.' = true ∧ headIsSpace [] = true) from
        fun hcon => by cases hcon.2)]
  rw [splitGo]
  rw [List.append_nil, List.reverse_cons, List.reverse_reverse,
    show List.replicate 799 'a' ++ ['.'] = wSent from rfl]

/-- The witness text splits into its three sentences. -/
theorem rawSplit_wText : rawSplit wText = [wSent, wSent, wSent] := by
  rw [wText, rawSplit]
  rw [scan_wSent _ (headOk_append_left _ wSent_ne wSent_headOk)]
  rw [scan_wSent _ wSent_headOk, scan_wSent_alone]

/-- The witness text is head-clean. -/
theorem wText_headOk : headOkB wText :=
  headOk_append_left _ wSent_ne wSent_headOk

/-- The witness text is last-clean. -/
theorem wText_lastOk : lastOkB wText := by
  rw [wText]
  refine lastOk_append_right _ (by simp) ?_
  rw [lastOkB_cons_of_ne (by
    intro hcon
    exact wSent_ne (List.append_eq_nil.mp hcon).1)]
  refine lastOk_append_right _ (by simp) ?_
  rw [lastOkB_cons_of_ne wSent_ne]
  exact wSent_lastOk

/-- The witness text is single-spaced. -/
theorem wText_noDbl : noDblB wText := by
  rw [wText]
  refine noDbl_sep _ _ wSent_nospace wSent_ne
    (headOk_append_left _ wSent_ne wSent_headOk) ?_
  exact noDbl_sep _ _ wSent_nospace wSent_ne wSent_headOk
    (noDbl_of_nospace _ wSent_nospace)

/-- Every whitespace character of the witness text is a plain space. -/
theorem wText_wsSp : wsSpB wText := by
  rw [wsSpB, List.all_eq_true]
  intro c hc
  rw [wText, List.mem_append, List.mem_cons] at hc
  rcases hc with hc | rfl | hc
  · simp [wSent_nospace c hc]
  · decide
  · rw [List.mem_append, List.mem_cons] at hc
    rcases hc with hc | rfl | hc
    · simp [wSent_nospace c hc]
    · decide
    · simp [wSent_nospace c hc]

/-- The witness text ends in a period. -/
theorem wText_getLast : wText.getLast? = some '.' := by
  rw [wText, List.getLast?_append_of_ne_nil _ (by simp)]
  rw [show (' ' :: (wSent ++ ' ' :: wSent)) = [' '] ++ (wSent ++ [' '] ++ wSent)
      from by simp]
  rw [List.getLast?_append_of_ne_nil _ (by
    intro hcon
    exact wSent_ne (List.append_eq_nil.mp hcon).2)]
  rw [List.getLast?_append_of_ne_nil _ wSent_ne]
  exact wSent_getLast

/-- Normalizing the witness text is a no-op. -/
theorem ensure_wText : ensure_sentence_endings wText = wText := by
  rw [ensure_sentence_endings]
  have hcoll : collapseWS wText = wText :=
    (collapseGo_id wText wText_wsSp wText_noDbl).1
  have hstrip : pyStrip wText = wText := pyStrip_id _ wText_headOk wText_lastOk
  rw [hcoll, hstrip, wText_getLast]
  dsimp only
  rw [if_pos (by decide)]

/-- The witness text is 2402 characters long. -/
theorem wText_len : wText.length = 2402 := by
  rw [wText, List.length_append, List.length_cons, List.length_append,
    List.length_cons, wSent_len]

/-- The witness text has exactly its three 800-character sentences. -/
theorem chunk_by_sentence_wText :
    chunk_by_sentence wText = [wSent, wSent, wSent] := by
  rw [chunk_by_sentence, pyStrip_id _ wText_headOk wText_lastOk,
    rawSplit_wText]
  rw [List.map_cons, List.map_cons, List.map_cons, List.map_nil,
    pyStrip_id _ wSent_headOk wSent_lastOk]
  rw [List.filter_eq_self.mpr]
  intro s hs
  rcases List.mem_cons.mp hs with rfl | hs
  · simpa using wSent_ne
  · rcases List.mem_cons.mp hs with rfl | hs
    · simpa using wSent_ne
    · rcases List.mem_cons.mp hs with rfl | hs
      · simpa using wSent_ne
      · exact absurd hs (List.not_mem_nil _)

/-- Witness for C6: the 2402-character three-sentence text is over the
threshold with every sentence under it, so the chunker splits it into at
least two chunks of at most 1500 characters that re-join to the sentences. -/
theorem chunking_spec_witness :
    2 ≤ (chunk_text_for_tts (ensure_sentence_endings wText)).length ∧
    (∀ c ∈ chunk_text_for_tts (ensure_sentence_endings wText),
        c.length ≤ MAX_CHUNK_SIZE) ∧
    (∃ part : List (List (List Char)),
        (∀ g ∈ part, g ≠ []) ∧
        part.flatten = chunk_by_sentence (ensure_sentence_endings wText) ∧
        chunk_text_for_tts (ensure_sentence_endings wText) = part.map joinSp) ∧
    (∀ (u s : List Char), s ∈ chunk_by_sentence u →
        MAX_CHUNK_SIZE < s.length → s ∈ chunk_text_for_tts u) :=
  chunking_spec wText
    (by rw [ensure_wText, wText_len]; decide)
    (by
      rw [ensure_wText, chunk_by_sentence_wText]
      intro s hs
      rcases List.mem_cons.mp hs with rfl | hs
      · rw [wSent_len]; decide
      · rcases List.mem_cons.mp hs with rfl | hs
        · rw [wSent_len]; decide
        · rcases List.mem_cons.mp hs with rfl | hs
          · rw [wSent_len]; decide
          · exact absurd hs (List.not_mem_nil _))

/-- C7: for every input (raw transcript, word timings, optional session),
when the underlying text-generation call fails, `generate_product_script`
returns a structured result with `success = false`, the error text in
`error`, and an error script, instead of raising past its boundary (the
embedding is a total function into `ScriptResult`). -/
theorem script_failure_is_structured (raw_text : String)
    (word_timings : List Word) (session : Option RecordingSession)
    (gen : String → Except String String) (e : String)
    (hgen : ∀ p, gen p = Except.error e) :
    (generate_product_script raw_text word_timings session gen).success
        = false ∧
    (generate_product_script raw_text word_timings session gen).error
        = some e ∧
    (generate_product_script raw_text word_timings session gen).script
        = "Error generating script: " ++ e ∧
    (generate_product_script raw_text word_timings session gen).raw_text
        = raw_text := by
  simp only [generate_product_script, hgen]
  exact ⟨trivial, trivial, trivial, trivial⟩

/-- Witness for C7 at a concrete failing generator. -/
theorem script_failure_is_structured_witness :
    (generate_product_script "hello world" [] none
        (fun _ => Except.error "quota exceeded")).success = false ∧
    (generate_product_script "hello world" [] none
        (fun _ => Except.error "quota exceeded")).error
        = some "quota exceeded" ∧
    (generate_product_script "hello world" [] none
        (fun _ => Except.error "quota exceeded")).script
        = "Error generating script: " ++ "quota exceeded" ∧
    (generate_product_script "hello world" [] none
        (fun _ => Except.error "quota exceeded")).raw_text
        = "hello world" :=
  script_failure_is_structured "hello world" [] none
    (fun _ => Except.error "quota exceeded") "quota exceeded"
    (fun _ => rfl)

end Clueso
